import Mathlib

/-!
# Verification of the `nbody` spatial index and force-aggregation engine

Shallow embedding of `src/physics.rs` and `src/space.rs`.

Modelling conventions:
* `f32` arithmetic is modelled by exact arithmetic over `ℝ` (the claims under
  study are about the algebraic structure of the computations, not rounding).
* `usize` arithmetic is modelled by `ℕ`, except for the one wrapping
  subtraction the code actually performs: Pass 1 of `compute` evaluates
  `(quad - 1) / 4` for every quad in the active list, including the root
  `quad = 0`, where the subtraction wraps around `2 ^ 64`.  `parent_slot`
  models that expression exactly for indices below `2 ^ 64` (all indices that
  can occur in a run).
* The aggregate buffer is a `List`; a raw-pointer write whose computed slot
  lies outside the buffer (which is what the wrapped root slot produces in a
  release build) is modelled by `List.set`, which is the identity out of
  range, i.e. the write misses every live slot.
* `Vec` indexing that would panic out of bounds is modelled with `List.getD`;
  theorems carry explicit in-bounds hypotheses where the distinction matters.
-/

namespace NBody

noncomputable section

/-- 2D vector with real components, modelling ultraviolet's `Vec2` (f32). -/
structure Vec2 where
  x : ℝ
  y : ℝ

theorem Vec2.ext_iff_xy (a b : Vec2) : a = b ↔ a.x = b.x ∧ a.y = b.y := by
  cases a; cases b; simp

instance : Zero Vec2 := ⟨⟨0, 0⟩⟩

instance : Add Vec2 := ⟨fun a b => ⟨a.x + b.x, a.y + b.y⟩⟩

instance : Sub Vec2 := ⟨fun a b => ⟨a.x - b.x, a.y - b.y⟩⟩

@[simp] theorem Vec2.zero_x : (0 : Vec2).x = 0 := rfl

@[simp] theorem Vec2.zero_y : (0 : Vec2).y = 0 := rfl

@[simp] theorem Vec2.add_x (a b : Vec2) : (a + b).x = a.x + b.x := rfl

@[simp] theorem Vec2.add_y (a b : Vec2) : (a + b).y = a.y + b.y := rfl

@[simp] theorem Vec2.sub_x (a b : Vec2) : (a - b).x = a.x - b.x := rfl

@[simp] theorem Vec2.sub_y (a b : Vec2) : (a - b).y = a.y - b.y := rfl

/-- `Vec2 * f32` componentwise scaling (ultraviolet `Mul<f32>`). -/
def Vec2.scale (v : Vec2) (c : ℝ) : Vec2 := ⟨v.x * c, v.y * c⟩

/-- `Vec2 / f32` componentwise division (ultraviolet `Div<f32>`). -/
def Vec2.sdiv (v : Vec2) (c : ℝ) : Vec2 := ⟨v.x / c, v.y / c⟩

/-- `Vec2::mag_sq`: squared magnitude. -/
def Vec2.mag_sq (v : Vec2) : ℝ := v.x * v.x + v.y * v.y

/-- `Vec2::mag`: magnitude. -/
def Vec2.mag (v : Vec2) : ℝ := Real.sqrt v.mag_sq

/-- `Vec2::normalized`: the vector divided by its magnitude. -/
def Vec2.normalized (v : Vec2) : Vec2 := v.sdiv v.mag

/-- Linear interpolation `lerp(self, other, t)` of ultraviolet's `Lerp`
(the standard affine form; all float variants agree over `ℝ`). -/
def Vec2.lerp (a b : Vec2) (t : ℝ) : Vec2 := a + (b - a).scale t

/-- `pub const GRAVITY: f32 = 12.0` from `physics.rs`. -/
def GRAVITY : ℝ := 12.0

/-- Real cube root on the non-negative reals, modelling `f32::cbrt`
(all radii occurring in the development are non-negative). -/
def cbrt (x : ℝ) : ℝ := x ^ ((1 : ℝ) / 3)

/-- `const fn non_neg_softsign(x: f32) -> f32 { x / (1.0 + x) }`. -/
def non_neg_softsign (x : ℝ) : ℝ := x / (1 + x)

/-- `Sphere { pos, mass, radius }` from `physics.rs`. -/
structure Sphere where
  pos : Vec2
  mass : ℝ
  radius : ℝ

/-- `#[derive(Default)]`: the all-zero sphere. -/
instance : Inhabited Sphere := ⟨⟨0, 0, 0⟩⟩

theorem Sphere.default_def : (default : Sphere) = ⟨0, 0, 0⟩ := rfl

/-- `Combine::combine for Sphere` (physics.rs lines 64-74): add the masses and
move to the mass-weighted centroid when `other.mass > 0.0`; always merge the
radii volume-additively. -/
def Sphere.combine (self other : Sphere) : Sphere :=
  let s :=
    if 0 < other.mass then
      { self with
        mass := self.mass + other.mass
        pos := self.pos.lerp other.pos (other.mass / (self.mass + other.mass)) }
    else self
  { s with
    radius :=
      cbrt (s.radius * s.radius * s.radius +
        other.radius * other.radius * other.radius) }

/-- `Affect::effect_on for Sphere` (physics.rs lines 85-95). -/
def Sphere.effect_on (self other : Sphere) : Vec2 :=
  if self.mass = 0 then 0
  else
    let displacement := self.pos - other.pos
    let mag_sq := displacement.mag_sq
    (((displacement.normalized.scale GRAVITY).scale self.mass).scale
        (non_neg_softsign (mag_sq / self.radius))).sdiv (1 + mag_sq)

/-- The softsign function exactly as the specification states it:
`softsign(x) = x / (1 + x)`. -/
def softsignSpec (x : ℝ) : ℝ := x / (1 + x)

/-- The reference force law exactly as the specification states it:
zero when the acting mass is zero, otherwise
`normalize(d) * (G * selfMass * softsign(r2 / selfRadius) / (1 + r2))`
with `d = selfPos - otherPos`, `r2 = |d|^2` and `G = 12`. -/
def effectSpec (self other : Sphere) : Vec2 :=
  if self.mass = 0 then 0
  else
    let d := self.pos - other.pos
    let r2 := d.mag_sq
    d.normalized.scale
      (GRAVITY * self.mass * softsignSpec (r2 / self.radius) / (1 + r2))

/-- C1: for every pair of spheres, `effect_on` returns the zero vector when
the acting mass is zero, and otherwise equals the specification's reference
force law `normalize(d) * G * m * softsign(r2 / radius) / (1 + r2)` with
`softsign(x) = x / (1 + x)` and `G = 12`. -/
theorem effect_on_eq_effectSpec (self other : Sphere) :
    self.effect_on other = effectSpec self other := by
  unfold Sphere.effect_on effectSpec
  by_cases h : self.mass = 0
  · simp [h]
  · simp only [h, if_false]
    rw [Vec2.ext_iff_xy]
    unfold Vec2.scale Vec2.sdiv softsignSpec non_neg_softsign
    constructor <;> · dsimp only; ring

/-- C10 counterexample: combining with a zero-mass sphere of radius `1` is
not a no-op: the radius is updated to `cbrt(0 + 1) = 1` regardless of the
mass branch. -/
theorem combine_zero_mass_not_id :
    Sphere.combine ⟨0, 1, 0⟩ ⟨0, 0, 1⟩ ≠ (⟨0, 1, 0⟩ : Sphere) := by
  intro h
  have hr : (Sphere.combine ⟨0, 1, 0⟩ ⟨0, 0, 1⟩).radius = 1 := by
    simp [Sphere.combine, cbrt]
  rw [h] at hr
  norm_num at hr

/-- C10 (amended): combining with the zero-mass, zero-radius aggregate
placeholder (`Sphere::default()`) leaves a sphere of non-negative radius
unchanged: mass, position and radius all keep their prior values. -/
theorem combine_default_id (s z : Sphere) (hm : z.mass = 0) (hr : z.radius = 0)
    (hs : 0 ≤ s.radius) : s.combine z = s := by
  unfold Sphere.combine
  rw [hm, hr]
  simp only [lt_irrefl, if_false]
  have h3 : s.radius * s.radius * s.radius + 0 * 0 * 0 = s.radius ^ (3 : ℕ) := by
    ring
  have hc : cbrt (s.radius ^ (3 : ℕ)) = s.radius := by
    rw [cbrt, ← Real.rpow_natCast s.radius 3, ← Real.rpow_mul hs]
    norm_num
  cases s
  simp_all

/-- C10 witness: the amended no-op law applied to a concrete sphere and the
default placeholder. -/
theorem combine_default_id_witness :
    Sphere.combine ⟨⟨1, 2⟩, 3, 5⟩ ⟨0, 0, 0⟩ = (⟨⟨1, 2⟩, 3, 5⟩ : Sphere) :=
  combine_default_id ⟨⟨1, 2⟩, 3, 5⟩ ⟨0, 0, 0⟩ rfl rfl (by norm_num)

/-! ## Integer arithmetic of the tree: `ceil_log4`, levels, z-order -/

/-- Model of Rust's `usize::is_power_of_two` (documented behaviour:
true iff the value is `2 ^ k` for some `k`). -/
def is_power_of_two (x : Nat) : Bool := 2 ^ Nat.log 2 x == x

theorem is_power_of_two_iff (x : Nat) :
    is_power_of_two x = true ↔ ∃ k, x = 2 ^ k := by
  unfold is_power_of_two
  rw [beq_iff_eq]
  constructor
  · intro h; exact ⟨Nat.log 2 x, h.symm⟩
  · rintro ⟨k, rfl⟩
    rw [Nat.log_pow (by norm_num)]

/-- `const fn ceil_log4(x: usize) -> usize` from space.rs line 276-278:
`((x | 1).ilog2() as usize + !x.is_power_of_two() as usize + 1) >> 1`. -/
def ceil_log4 (x : Nat) : Nat :=
  (Nat.log 2 (x ||| 1) + (if is_power_of_two x then 0 else 1) + 1) >>> 1

theorem shiftRight_one_eq (a : Nat) : a >>> 1 = a / 2 := by
  simp [Nat.shiftRight_succ, Nat.shiftRight_zero]

theorem two_mul_lor_one (n : Nat) : 2 * n ||| 1 = 2 * n + 1 := by
  have h := Nat.lor_bit false n true 0
  simpa [Nat.bit] using h

theorem log_two_mul_add_one (n : Nat) (hn : 1 ≤ n) :
    Nat.log 2 (2 * n + 1) = Nat.log 2 (2 * n) := by
  have hne : 2 * n ≠ 0 := by omega
  have h1 : 2 ^ Nat.log 2 (2 * n) ≤ 2 * n := Nat.pow_log_le_self 2 hne
  have h2 : 2 * n < 2 ^ (Nat.log 2 (2 * n) + 1) :=
    Nat.lt_pow_succ_log_self (by norm_num) _
  have h3 : 2 ^ (Nat.log 2 (2 * n) + 1) = 2 * 2 ^ Nat.log 2 (2 * n) := by
    rw [pow_succ]; ring
  exact Nat.log_eq_of_pow_le_of_lt_pow (by omega) (by omega)

theorem ceil_log4_zero : ceil_log4 0 = 1 := by
  have h : (0 : Nat) ||| 1 = 1 := by simp
  have hp : is_power_of_two 0 = false := by
    simp [is_power_of_two]
  simp [ceil_log4, h, hp, Nat.log_one_right, shiftRight_one_eq]

theorem ceil_log4_two_mul (n : Nat) (hn : 1 ≤ n) :
    ceil_log4 (2 * n) =
      (Nat.log 2 (2 * n) + (if is_power_of_two (2 * n) then 0 else 1) + 1) / 2 := by
  rw [ceil_log4, two_mul_lor_one, log_two_mul_add_one n hn, shiftRight_one_eq]

theorem four_pow_eq_two_pow (d : Nat) : 4 ^ d = 2 ^ (2 * d) := by
  rw [pow_mul]; norm_num

/-- For a positive even argument `2 * n`, `ceil_log4 (2 * n)` is the least `D`
with `2 * n ≤ 4 ^ D`. -/
theorem ceil_log4_isLeast (n : Nat) (hn : 1 ≤ n) :
    IsLeast {D : Nat | 2 * n ≤ 4 ^ D} (ceil_log4 (2 * n)) := by
  have hne : 2 * n ≠ 0 := by omega
  set k := Nat.log 2 (2 * n) with hk
  have h1 : 2 ^ k ≤ 2 * n := Nat.pow_log_le_self 2 hne
  have h2 : 2 * n < 2 ^ (k + 1) := Nat.lt_pow_succ_log_self (by norm_num) _
  have hk1 : 1 ≤ k := by
    by_contra hc
    have : k = 0 := by omega
    rw [this] at h2
    omega
  by_cases hp : is_power_of_two (2 * n)
  · -- 2 * n = 2 ^ k
    have hx : 2 * n = 2 ^ k := by
      rw [is_power_of_two_iff] at hp
      obtain ⟨j, hj⟩ := hp
      rw [hj, Nat.log_pow (by norm_num)] at hk
      rw [hj, hk]
    have hE : ceil_log4 (2 * n) = (k + 1) / 2 := by
      rw [ceil_log4_two_mul n hn, if_pos hp]
    rw [hE]
    constructor
    · simp only [Set.mem_setOf_eq]
      rw [hx, four_pow_eq_two_pow]
      exact Nat.pow_le_pow_right (by norm_num) (by omega)
    · intro d hd
      simp only [Set.mem_setOf_eq] at hd
      have : 2 ^ k ≤ 2 ^ (2 * d) := by
        rw [← four_pow_eq_two_pow, ← hx]; exact hd
      have hkd : k ≤ 2 * d := (Nat.pow_le_pow_iff_right (by norm_num)).mp this
      omega
  · -- 2 ^ k < 2 * n
    have hlt : 2 ^ k < 2 * n := by
      rcases lt_or_eq_of_le h1 with h | h
      · exact h
      · exfalso
        apply hp
        rw [is_power_of_two_iff]
        exact ⟨k, h.symm⟩
    have hE : ceil_log4 (2 * n) = (k + 2) / 2 := by
      rw [ceil_log4_two_mul n hn, if_neg hp]
    rw [hE]
    constructor
    · simp only [Set.mem_setOf_eq]
      rw [four_pow_eq_two_pow]
      calc 2 * n ≤ 2 ^ (k + 1) := by omega
        _ ≤ 2 ^ (2 * ((k + 2) / 2)) := Nat.pow_le_pow_right (by norm_num) (by omega)
    · intro d hd
      simp only [Set.mem_setOf_eq] at hd
      have : 2 ^ k < 2 ^ (2 * d) := by
        calc 2 ^ k < 2 * n := hlt
          _ ≤ 4 ^ d := hd
          _ = 2 ^ (2 * d) := four_pow_eq_two_pow d
      have hkd : k < 2 * d := (Nat.pow_lt_pow_iff_right (by norm_num)).mp this
      omega

/-- Start index of tree level `ℓ` in the implicit 4-ary array layout:
`treeBase ℓ = (4 ^ ℓ - 1) / 3`, defined by the recursion the layout induces. -/
def treeBase : Nat → Nat
  | 0 => 0
  | n + 1 => 4 * treeBase n + 1

theorem three_mul_treeBase (ℓ : Nat) : 3 * treeBase ℓ + 1 = 4 ^ ℓ := by
  induction ℓ with
  | zero => rfl
  | succ n ih =>
    show 3 * (4 * treeBase n + 1) + 1 = 4 ^ (n + 1)
    rw [pow_succ]
    omega

/-- `Quadtree::len_for_depth` (space.rs line 58-60):
`((4 << (2 * depth)) - 1) / 3`. -/
def len_for_depth (depth : Nat) : Nat := ((4 <<< (2 * depth)) - 1) / 3

theorem len_for_depth_eq (d : Nat) : len_for_depth d = treeBase (d + 1) := by
  have h4 : (4 : Nat) <<< (2 * d) = 4 ^ (d + 1) := by
    rw [Nat.shiftLeft_eq, ← four_pow_eq_two_pow, pow_succ]
    ring
  have hb := three_mul_treeBase (d + 1)
  rw [len_for_depth, h4]
  omega

/-- Level of a node index in the implicit 4-ary tree (root `0` has level `0`;
the parent of `q + 1` is `q / 4`). -/
def lev : Nat → Nat
  | 0 => 0
  | n + 1 => lev (n / 4) + 1
decreasing_by exact Nat.lt_succ_of_le (Nat.div_le_self n 4)

theorem lev_zero : lev 0 = 0 := by rw [lev]

theorem lev_succ (n : Nat) : lev (n + 1) = lev (n / 4) + 1 := by rw [lev]

theorem lev_parent (q : Nat) (hq : 1 ≤ q) : lev q = lev ((q - 1) / 4) + 1 := by
  obtain ⟨n, rfl⟩ : ∃ n, q = n + 1 := ⟨q - 1, by omega⟩
  rw [lev_succ]
  norm_num

theorem lev_base_add (ℓ w : Nat) (hw : w < 4 ^ ℓ) : lev (treeBase ℓ + w) = ℓ := by
  induction ℓ generalizing w with
  | zero =>
    have : w = 0 := by simpa using hw
    simp [this, treeBase, lev_zero]
  | succ n ih =>
    show lev (4 * treeBase n + 1 + w) = n + 1
    have h1 : 4 * treeBase n + 1 + w = (4 * treeBase n + w) + 1 := by omega
    rw [h1, lev_succ]
    have h2 : (4 * treeBase n + w) / 4 = treeBase n + w / 4 := by omega
    have h3 : w / 4 < 4 ^ n := by
      have := pow_succ 4 n
      omega
    rw [h2, ih (w / 4) h3]

theorem treeBase_le_self (q : Nat) :
    treeBase (lev q) ≤ q ∧ q < treeBase (lev q + 1) := by
  induction q using Nat.strong_induction_on with
  | _ q ih =>
    match q with
    | 0 =>
      rw [lev_zero]
      exact ⟨Nat.le_refl 0, by simp [treeBase]⟩
    | n + 1 =>
      have hrec : n / 4 < n + 1 := Nat.lt_succ_of_le (Nat.div_le_self n 4)
      obtain ⟨hlo, hhi⟩ := ih (n / 4) hrec
      rw [lev_succ]
      set L := lev (n / 4) with hLdef
      have hb1 : treeBase (L + 1) = 4 * treeBase L + 1 := rfl
      have hb2 : treeBase (L + 1 + 1) = 4 * treeBase (L + 1) + 1 := rfl
      omega

theorem lev_eq_of_range (ℓ q : Nat) (h1 : treeBase ℓ ≤ q)
    (h2 : q < treeBase (ℓ + 1)) : lev q = ℓ := by
  have hw : q - treeBase ℓ < 4 ^ ℓ := by
    have := three_mul_treeBase ℓ
    have hb : treeBase (ℓ + 1) = 4 * treeBase ℓ + 1 := rfl
    omega
  have := lev_base_add ℓ (q - treeBase ℓ) hw
  rwa [Nat.add_sub_cancel' h1] at this

theorem lev_child (s j : Nat) (h1 : 1 ≤ j) (h2 : j ≤ 4) :
    lev (4 * s + j) = lev s + 1 := by
  obtain ⟨m, rfl⟩ : ∃ m, j = m + 1 := ⟨j - 1, by omega⟩
  have h : 4 * s + (m + 1) = (4 * s + m) + 1 := by omega
  rw [h, lev_succ]
  have : (4 * s + m) / 4 = s := by omega
  rw [this]

theorem lev_pos (q : Nat) (hq : 1 ≤ q) : 1 ≤ lev q := by
  rw [lev_parent q hq]; omega

theorem lev_zero_iff (q : Nat) : lev q = 0 ↔ q = 0 := by
  constructor
  · intro h
    by_contra hc
    have := lev_pos q (by omega)
    omega
  · rintro rfl
    exact lev_zero

/-- Z-order (Morton) key of a grid coordinate, modelling
`zorder::index_of([x, y])`: the bits of the two coordinates interleaved. -/
def zorderIndex (x y : Nat) : Nat :=
  if x = 0 ∧ y = 0 then 0
  else x % 2 + 2 * (y % 2) + 4 * zorderIndex (x / 2) (y / 2)
termination_by x + y
decreasing_by omega

theorem zorderIndex_zero : zorderIndex 0 0 = 0 := by
  rw [zorderIndex]; simp

theorem zorderIndex_eq (x y : Nat) (h : ¬(x = 0 ∧ y = 0)) :
    zorderIndex x y = x % 2 + 2 * (y % 2) + 4 * zorderIndex (x / 2) (y / 2) := by
  rw [zorderIndex]
  exact if_neg h

theorem zorderIndex_lt (d x y : Nat) (hx : x < 2 ^ d) (hy : y < 2 ^ d) :
    zorderIndex x y < 4 ^ d := by
  induction d generalizing x y with
  | zero =>
    have hx0 : x = 0 := by omega
    have hy0 : y = 0 := by omega
    subst hx0; subst hy0
    rw [zorderIndex_zero]
    norm_num
  | succ n ih =>
    rw [zorderIndex]
    by_cases h : x = 0 ∧ y = 0
    · rw [if_pos h]
      exact Nat.pos_pow_of_pos _ (by norm_num)
    · rw [if_neg h]
      have h2x : x / 2 < 2 ^ n := by
        have := pow_succ 2 n
        omega
      have h2y : y / 2 < 2 ^ n := by
        have := pow_succ 2 n
        omega
      have hz := ih (x / 2) (y / 2) h2x h2y
      have h4 : (4 : Nat) ^ (n + 1) = 4 * 4 ^ n := by
        rw [pow_succ]; ring
      omega

theorem zorderIndex_div_four (x y : Nat) :
    zorderIndex x y / 4 = zorderIndex (x / 2) (y / 2) := by
  rw [zorderIndex]
  by_cases h : x = 0 ∧ y = 0
  · rw [if_pos h]
    obtain ⟨rfl, rfl⟩ := h
    simp [zorderIndex_zero]
  · rw [if_neg h]
    omega

theorem zorderIndex_inj (a b c d : Nat) (h : zorderIndex a b = zorderIndex c d) :
    a = c ∧ b = d := by
  have hgen : ∀ n a b c d : Nat, a + b + c + d ≤ n →
      zorderIndex a b = zorderIndex c d → a = c ∧ b = d := by
    intro n
    induction n with
    | zero =>
      intro a b c d hle _
      omega
    | succ m ih =>
      intro a b c d hle heq
      by_cases h1 : a = 0 ∧ b = 0
      · by_cases h2 : c = 0 ∧ d = 0
        · omega
        · exfalso
          obtain ⟨rfl, rfl⟩ := h1
          rw [zorderIndex_zero, zorderIndex_eq c d h2] at heq
          -- 0 = c % 2 + 2 * (d % 2) + 4 * z, forces c, d even and z = 0
          have hz : zorderIndex (c / 2) (d / 2) = 0 := by omega
          have := ih 0 0 (c / 2) (d / 2) (by omega)
            (by rw [zorderIndex_zero, hz])
          omega
      · by_cases h2 : c = 0 ∧ d = 0
        · exfalso
          obtain ⟨rfl, rfl⟩ := h2
          rw [zorderIndex_zero, zorderIndex_eq a b h1] at heq
          have hz : zorderIndex (a / 2) (b / 2) = 0 := by omega
          have := ih (a / 2) (b / 2) 0 0 (by omega)
            (by rw [zorderIndex_zero, hz])
          omega
        · rw [zorderIndex_eq a b h1, zorderIndex_eq c d h2] at heq
          have hmod : a % 2 = c % 2 ∧ b % 2 = d % 2 := by omega
          have hdiv : zorderIndex (a / 2) (b / 2) = zorderIndex (c / 2) (d / 2) := by
            omega
          have := ih (a / 2) (b / 2) (c / 2) (d / 2) (by omega) hdiv
          omega
  exact hgen (a + b + c + d) a b c d (le_refl _) h

/-! ## List access helpers -/

theorem getD_set_self {α : Type} (l : List α) (i : Nat) (v d : α)
    (h : i < l.length) : (l.set i v).getD i d = v := by
  rw [List.getD_eq_getElem?_getD, List.getElem?_set_self h]
  rfl

theorem getD_set_ne {α : Type} (l : List α) (i j : Nat) (v d : α)
    (h : i ≠ j) : (l.set i v).getD j d = l.getD j d := by
  rw [List.getD_eq_getElem?_getD, List.getElem?_set_ne h,
    ← List.getD_eq_getElem?_getD]

theorem getD_replicate {α : Type} (n i : Nat) (a d : α) :
    (List.replicate n a).getD i d = if i < n then a else d := by
  rw [List.getD_eq_getElem?_getD, List.getElem?_replicate]
  by_cases h : i < n <;> simp [h]

theorem getD_oob {α : Type} (l : List α) (i : Nat) (d : α)
    (h : l.length ≤ i) : l.getD i d = d := by
  rw [List.getD_eq_getElem?_getD, List.getElem?_eq_none h]
  rfl

theorem getD_ne_d_lt {α : Type} (l : List α) (i : Nat) (d : α)
    (h : l.getD i d ≠ d) : i < l.length := by
  by_contra hc
  exact h (getD_oob l i d (by omega))

theorem getD_set {α : Type} (l : List α) (k j : Nat) (v d : α) :
    (l.set k v).getD j d = if k = j ∧ j < l.length then v else l.getD j d := by
  by_cases h1 : k = j
  · subst h1
    by_cases h2 : k < l.length
    · rw [if_pos ⟨rfl, h2⟩, getD_set_self _ _ _ _ h2]
    · rw [List.set_eq_of_length_le (by omega)]
      simp [h2]
  · simp only [h1, false_and, if_false]
    exact getD_set_ne _ _ _ _ _ h1

/-! ## The spatial index: `Quadtree` from `space.rs` -/

/-- `Quadtree { inner, points, quads, pos, size }`.  Grid coordinates
(`UVec2`) are modelled as pairs of naturals. -/
structure Quadtree where
  inner : List (Option (Nat × Nat))
  points : List (List Nat)
  quads : List Nat
  pos : Vec2
  size : ℝ

/-- The bounds filter of the placement loop (space.rs line 120):
`pos.component_min() >= 0. && pos.component_max() < self.size`. -/
def in_bounds (size : ℝ) (p : Vec2) : Prop :=
  0 ≤ min p.x p.y ∧ max p.x p.y < size

instance in_bounds_dec (size : ℝ) (p : Vec2) : Decidable (in_bounds size p) := by
  unfold in_bounds
  infer_instance

/-- The position of the body a handle designates, relative to the tree
origin: `objects[id].borrow().pos() - self.pos` (space.rs line 118). -/
def relPos (objects : List Sphere) (origin : Vec2) (h : Nat) : Vec2 :=
  (objects.getD h default).pos - origin

/-- The integer grid coordinate of a handle's body:
`UVec2::try_from(pos * scale).unwrap()` (space.rs line 122), i.e. the
relative position scaled and truncated componentwise. -/
def cellCoords (objects : List Sphere) (origin : Vec2) (scale : ℝ)
    (h : Nat) : Nat × Nat :=
  ((⌊(relPos objects origin h).x * scale⌋).toNat,
   (⌊(relPos objects origin h).y * scale⌋).toNat)

/-- The space-filling-curve key `zorder::index_of(coords.as_array())`
(space.rs line 123) of a handle's body. -/
def cellKey (objects : List Sphere) (origin : Vec2) (scale : ℝ)
    (h : Nat) : Nat :=
  zorderIndex (cellCoords objects origin scale h).1
    (cellCoords objects origin scale h).2

/-- One iteration of the placement loop of `build_from_objects` (space.rs
lines 116-127).  The loop variable is `(id, handle)` produced by
`enumerate()` over the handle iterable ***after*** the handles have been
mapped to positions — so `id` is the position inside the handle iterable,
and `id`, not the handle, is what is pushed into the leaf bucket. -/
def place_step (objects : List Sphere) (origin : Vec2) (size scale : ℝ)
    (leaf_idx : Nat) (st : List (List Nat) × List (Option (Nat × Nat)))
    (ih : Nat × Nat) : List (List Nat) × List (Option (Nat × Nat)) :=
  if in_bounds size (relPos objects origin ih.2) then
    let z := cellKey objects origin scale ih.2
    (st.1.set z (st.1.getD z [] ++ [ih.1]),
     st.2.set (leaf_idx + z)
       (some ((st.2.getD (leaf_idx + z) none).getD
         (cellCoords objects origin scale ih.2))))
  else st

/-- `Quadtree::collate` loop (space.rs lines 86-93): sweep indices from `i`
down to `1`; for every active node, activate its parent with the halved
coordinate via `get_or_insert` and push the index.  Returns the updated node
array and the pushed indices in push order (descending). -/
def collateLoop : List (Option (Nat × Nat)) → Nat →
    List (Option (Nat × Nat)) × List Nat
  | inner, 0 => (inner, [])
  | inner, i + 1 =>
    match inner.getD (i + 1) none with
    | none => collateLoop inner i
    | some c =>
      let inner2 := inner.set (i / 4)
        (some ((inner.getD (i / 4) none).getD (c.1 / 2, c.2 / 2)))
      let r := collateLoop inner2 i
      (r.1, (i + 1) :: r.2)

theorem collateLoop_zero (inner : List (Option (Nat × Nat))) :
    collateLoop inner 0 = (inner, []) := rfl

theorem collateLoop_succ_none (inner : List (Option (Nat × Nat))) (i : Nat)
    (h : inner.getD (i + 1) none = none) :
    collateLoop inner (i + 1) = collateLoop inner i := by
  rw [collateLoop, h]

theorem collateLoop_succ_some (inner : List (Option (Nat × Nat))) (i : Nat)
    (c : Nat × Nat) (h : inner.getD (i + 1) none = some c) :
    collateLoop inner (i + 1) =
      ((collateLoop (inner.set (i / 4)
          (some ((inner.getD (i / 4) none).getD (c.1 / 2, c.2 / 2)))) i).1,
        (i + 1) :: (collateLoop (inner.set (i / 4)
          (some ((inner.getD (i / 4) none).getD (c.1 / 2, c.2 / 2)))) i).2) := by
  rw [collateLoop, h]

/-- The depth computed by `build_from_objects` (space.rs line 107):
`ceil_log4(objects.len() * 2)`.  Note it is the *object* count, not the
handle count, that enters. -/
def buildDepth (objects : List Sphere) : Nat := ceil_log4 (objects.length * 2)

/-- Tree array capacity grown by `build_from_objects` for the computed
depth: `Self::len_for_depth(depth)` (space.rs lines 62-67, 108). -/
def treeLen (objects : List Sphere) : Nat := len_for_depth (buildDepth objects)

/-- Leaf bucket capacity grown by `build_from_objects` for the computed
depth: `1 << (2 * depth)` (space.rs line 64). -/
def pointsLen (objects : List Sphere) : Nat := 1 <<< (2 * buildDepth objects)

/-- `let leaf_idx = self.inner.len() - self.points.len()` (space.rs
line 111) in the freshly grown state. -/
def leafIdx (objects : List Sphere) : Nat := treeLen objects - pointsLen objects

/-- `let scale = (1 << depth) as f32 / self.size` (space.rs line 114). -/
def buildScale (size : ℝ) (objects : List Sphere) : ℝ :=
  (2 ^ buildDepth objects : ℝ) / size

/-- The placement loop of `build_from_objects` run over the enumerated
handle iterable, starting from the cleared, freshly grown buffers. -/
def placeFold (pos : Vec2) (size : ℝ) (objects : List Sphere)
    (handles : List Nat) : List (List Nat) × List (Option (Nat × Nat)) :=
  handles.enum.foldl
    (place_step objects pos size (buildScale size objects) (leafIdx objects))
    (List.replicate (pointsLen objects) [],
      List.replicate (treeLen objects) none)

/-- `Quadtree::build_from_objects` (space.rs lines 99-130) starting from a
cleared tree grown exactly to the computed depth (the state produced by the
`new()/clear()` lifecycle the engine uses): compute the depth, grow, place
every handle, then collate.  `quads` ends up as `0 ::` the collated list
reversed (space.rs lines 94-95). -/
def build_from_objects (pos : Vec2) (size : ℝ) (objects : List Sphere)
    (handles : List Nat) : Quadtree :=
  let st := placeFold pos size objects handles
  let r := collateLoop st.2 (treeLen objects - 1)
  { inner := r.1, points := st.1, quads := 0 :: r.2.reverse,
    pos := pos, size := size }

theorem points_len_eq (d : Nat) : 1 <<< (2 * d) = 4 ^ d := by
  rw [Nat.shiftLeft_eq, one_mul, ← four_pow_eq_two_pow]

theorem buildDepth_pos (objects : List Sphere) : 1 ≤ buildDepth objects := by
  unfold buildDepth
  rcases Nat.eq_zero_or_pos objects.length with h | h
  · rw [h]
    simp [ceil_log4_zero]
  · have hle := (ceil_log4_isLeast objects.length h).1
    by_contra hc
    have h0 : ceil_log4 (2 * objects.length) = 0 := by
      rw [Nat.mul_comm]
      omega
    rw [h0] at hle
    simp only [Set.mem_setOf_eq, pow_zero] at hle
    omega

theorem leaf_idx_eq (d : Nat) : len_for_depth d - 4 ^ d = treeBase d := by
  have h1 := len_for_depth_eq d
  have h2 : treeBase (d + 1) = 4 * treeBase d + 1 := rfl
  have h3 := three_mul_treeBase d
  omega

theorem treeBase_pos (d : Nat) (hd : 1 ≤ d) : 1 ≤ treeBase d := by
  obtain ⟨m, rfl⟩ : ∃ m, d = m + 1 := ⟨d - 1, by omega⟩
  show 1 ≤ 4 * treeBase m + 1
  omega

/-! ## Properties of the collate sweep -/

theorem collateLoop_length (inner : List (Option (Nat × Nat))) (i : Nat) :
    (collateLoop inner i).1.length = inner.length := by
  induction i generalizing inner with
  | zero => rfl
  | succ n ih =>
    cases h : inner.getD (n + 1) none with
    | none =>
      rw [collateLoop_succ_none inner n h]
      exact ih inner
    | some c =>
      rw [collateLoop_succ_some inner n c h]
      dsimp only
      rw [ih, List.length_set]

theorem collateLoop_getD_high (inner : List (Option (Nat × Nat))) (i : Nat)
    (j : Nat) (hj : i ≤ j) :
    (collateLoop inner i).1.getD j none = inner.getD j none := by
  induction i generalizing inner with
  | zero => rfl
  | succ n ih =>
    cases h : inner.getD (n + 1) none with
    | none =>
      rw [collateLoop_succ_none inner n h]
      exact ih inner (by omega)
    | some c =>
      rw [collateLoop_succ_some inner n c h]
      dsimp only
      rw [ih _ (by omega), getD_set]
      have : ¬(n / 4 = j ∧ j < inner.length) := by
        intro hcc
        omega
      rw [if_neg this]

theorem collateLoop_isSome_mono (inner : List (Option (Nat × Nat))) (i j : Nat)
    (h : inner.getD j none ≠ none) :
    (collateLoop inner i).1.getD j none ≠ none := by
  induction i generalizing inner with
  | zero => exact h
  | succ n ih =>
    cases hs : inner.getD (n + 1) none with
    | none =>
      rw [collateLoop_succ_none inner n hs]
      exact ih inner h
    | some c =>
      rw [collateLoop_succ_some inner n c hs]
      dsimp only
      apply ih
      rw [getD_set]
      by_cases hc : n / 4 = j ∧ j < inner.length
      · rw [if_pos hc]
        simp
      · rw [if_neg hc]
        exact h

theorem collateLoop_mem (inner : List (Option (Nat × Nat))) (i : Nat)
    (q : Nat) :
    q ∈ (collateLoop inner i).2 ↔
      1 ≤ q ∧ q ≤ i ∧ (collateLoop inner i).1.getD q none ≠ none := by
  induction i generalizing inner with
  | zero =>
    rw [collateLoop_zero]
    simp only [List.not_mem_nil, false_iff]
    omega
  | succ n ih =>
    cases h : inner.getD (n + 1) none with
    | none =>
      rw [collateLoop_succ_none inner n h]
      rw [ih inner]
      constructor
      · intro ⟨h1, h2, h3⟩
        exact ⟨h1, by omega, h3⟩
      · intro ⟨h1, h2, h3⟩
        refine ⟨h1, ?_, h3⟩
        rcases Nat.lt_or_ge q (n + 1) with hq | hq
        · omega
        · exfalso
          have hq1 : q = n + 1 := by omega
          rw [hq1, collateLoop_getD_high inner n (n + 1) (by omega), h] at h3
          exact h3 rfl
    | some c =>
      rw [collateLoop_succ_some inner n c h]
      dsimp only
      rw [List.mem_cons, ih]
      set inner2 := inner.set (n / 4)
        (some ((inner.getD (n / 4) none).getD (c.1 / 2, c.2 / 2))) with hinner2
      constructor
      · rintro (rfl | ⟨h1, h2, h3⟩)
        · refine ⟨by omega, by omega, ?_⟩
          rw [collateLoop_getD_high inner2 n (n + 1) (by omega), hinner2,
            getD_set]
          have : ¬(n / 4 = n + 1 ∧ n + 1 < inner.length) := by
            intro hcc
            omega
          rw [if_neg this, h]
          simp
        · exact ⟨h1, by omega, h3⟩
      · rintro ⟨h1, h2, h3⟩
        rcases Nat.lt_or_ge q (n + 1) with hq | hq
        · exact Or.inr ⟨h1, by omega, h3⟩
        · exact Or.inl (by omega)

theorem collateLoop_desc (inner : List (Option (Nat × Nat))) (i : Nat) :
    List.Pairwise (fun a b => b < a) (collateLoop inner i).2 := by
  induction i generalizing inner with
  | zero =>
    rw [collateLoop_zero]
    exact List.Pairwise.nil
  | succ n ih =>
    cases h : inner.getD (n + 1) none with
    | none =>
      rw [collateLoop_succ_none inner n h]
      exact ih inner
    | some c =>
      rw [collateLoop_succ_some inner n c h]
      dsimp only
      refine List.Pairwise.cons ?_ (ih _)
      intro b hb
      have := (collateLoop_mem _ n b).mp hb
      omega

theorem collateLoop_parent_closed (inner : List (Option (Nat × Nat))) (i : Nat)
    (q : Nat) (h1 : 1 ≤ q) (h2 : q ≤ i)
    (h3 : (collateLoop inner i).1.getD q none ≠ none) :
    (collateLoop inner i).1.getD ((q - 1) / 4) none ≠ none := by
  induction i generalizing inner with
  | zero => omega
  | succ n ih =>
    cases h : inner.getD (n + 1) none with
    | none =>
      rw [collateLoop_succ_none inner n h] at h3 ⊢
      rcases Nat.lt_or_ge q (n + 1) with hq | hq
      · exact ih inner (by omega) h3
      · exfalso
        have hq1 : q = n + 1 := by omega
        rw [hq1, collateLoop_getD_high inner n (n + 1) (by omega), h] at h3
        exact h3 rfl
    | some c =>
      rw [collateLoop_succ_some inner n c h] at h3 ⊢
      dsimp only at h3 ⊢
      set inner2 := inner.set (n / 4)
        (some ((inner.getD (n / 4) none).getD (c.1 / 2, c.2 / 2))) with hinner2
      rcases Nat.lt_or_ge q (n + 1) with hq | hq
      · exact ih inner2 (by omega) h3
      · have hq1 : q = n + 1 := by omega
        subst hq1
        have hlen : n + 1 < inner.length := by
          apply getD_ne_d_lt inner (n + 1) none
          rw [h]
          simp
        apply collateLoop_isSome_mono
        have : (n + 1 - 1) / 4 = n / 4 := by omega
        rw [this, hinner2, getD_set, if_pos ⟨rfl, by omega⟩]
        simp

theorem collateLoop_unwritten (inner : List (Option (Nat × Nat))) (i : Nat)
    (j : Nat) (hj : ∀ m, 1 ≤ m → m ≤ i → (m - 1) / 4 ≠ j) :
    (collateLoop inner i).1.getD j none = inner.getD j none := by
  induction i generalizing inner with
  | zero => rfl
  | succ n ih =>
    cases h : inner.getD (n + 1) none with
    | none =>
      rw [collateLoop_succ_none inner n h]
      exact ih inner fun m hm1 hm2 => hj m hm1 (by omega)
    | some c =>
      rw [collateLoop_succ_some inner n c h]
      dsimp only
      rw [ih _ fun m hm1 hm2 => hj m hm1 (by omega), getD_set]
      have hne : n / 4 ≠ j := by
        have := hj (n + 1) (by omega) (by omega)
        simpa using this
      rw [if_neg (by tauto)]

/-- The coordinate stored at an active slot is consistent with the slot's
position in the array layout: the slot index is the level base plus the
z-order key of the coordinate, and the coordinate fits the level's grid. -/
def GoodAt (q : Nat) (c : Nat × Nat) : Prop :=
  c.1 < 2 ^ lev q ∧ c.2 < 2 ^ lev q ∧
    q = treeBase (lev q) + zorderIndex c.1 c.2

theorem goodAt_parent (n : Nat) (c : Nat × Nat) (hg : GoodAt (n + 1) c) :
    GoodAt (n / 4) (c.1 / 2, c.2 / 2) := by
  obtain ⟨h1, h2, h3⟩ := hg
  have hl : 1 ≤ lev (n + 1) := lev_pos _ (by omega)
  obtain ⟨ℓ, hℓ⟩ : ∃ ℓ, lev (n + 1) = ℓ + 1 := ⟨lev (n + 1) - 1, by omega⟩
  rw [hℓ] at h1 h2 h3
  have hz : zorderIndex c.1 c.2 < 4 ^ (ℓ + 1) := zorderIndex_lt _ _ _ h1 h2
  have htb : treeBase (ℓ + 1) = 4 * treeBase ℓ + 1 := rfl
  have hdiv : n / 4 = treeBase ℓ + zorderIndex c.1 c.2 / 4 := by omega
  have hz4 : zorderIndex c.1 c.2 / 4 < 4 ^ ℓ := by
    have := pow_succ 4 ℓ
    omega
  have hlev : lev (n / 4) = ℓ := by
    rw [hdiv]
    exact lev_base_add ℓ _ hz4
  refine ⟨?_, ?_, ?_⟩
  · rw [hlev]
    have := pow_succ 2 ℓ
    dsimp only
    omega
  · rw [hlev]
    have := pow_succ 2 ℓ
    dsimp only
    omega
  · rw [hlev, hdiv, zorderIndex_div_four]

theorem collateLoop_good (inner : List (Option (Nat × Nat))) (i : Nat)
    (hg : ∀ q c, inner.getD q none = some c → GoodAt q c) :
    ∀ q c, (collateLoop inner i).1.getD q none = some c → GoodAt q c := by
  induction i generalizing inner with
  | zero => exact hg
  | succ n ih =>
    cases h : inner.getD (n + 1) none with
    | none =>
      rw [collateLoop_succ_none inner n h]
      exact ih inner hg
    | some c0 =>
      rw [collateLoop_succ_some inner n c0 h]
      dsimp only
      apply ih
      intro q c hqc
      rw [getD_set] at hqc
      by_cases hc : n / 4 = q ∧ q < inner.length
      · rw [if_pos hc] at hqc
        obtain ⟨rfl, _⟩ := hc
        cases hold : inner.getD (n / 4) none with
        | some c1 =>
          rw [hold] at hqc
          simp only [Option.getD_some, Option.some.injEq] at hqc
          subst hqc
          exact hg _ _ hold
        | none =>
          rw [hold] at hqc
          simp only [Option.getD_none, Option.some.injEq] at hqc
          subst hqc
          exact goodAt_parent n c0 (hg _ _ h)
      · rw [if_neg hc] at hqc
        exact hg _ _ hqc

/-! ## Properties of the placement loop -/

theorem place_fold_points_length (objects : List Sphere) (origin : Vec2)
    (size scale : ℝ) (leaf_idx : Nat) (L : List (Nat × Nat))
    (st : List (List Nat) × List (Option (Nat × Nat))) :
    (L.foldl (place_step objects origin size scale leaf_idx) st).1.length =
      st.1.length := by
  induction L generalizing st with
  | nil => rfl
  | cons p T ih =>
    rw [List.foldl_cons, ih]
    unfold place_step
    by_cases hb : in_bounds size (relPos objects origin p.2)
    · rw [if_pos hb]
      exact List.length_set _ _ _
    · rw [if_neg hb]

theorem place_fold_inner_length (objects : List Sphere) (origin : Vec2)
    (size scale : ℝ) (leaf_idx : Nat) (L : List (Nat × Nat))
    (st : List (List Nat) × List (Option (Nat × Nat))) :
    (L.foldl (place_step objects origin size scale leaf_idx) st).2.length =
      st.2.length := by
  induction L generalizing st with
  | nil => rfl
  | cons p T ih =>
    rw [List.foldl_cons, ih]
    unfold place_step
    by_cases hb : in_bounds size (relPos objects origin p.2)
    · rw [if_pos hb]
      exact List.length_set _ _ _
    · rw [if_neg hb]

theorem place_fold_points_getD (objects : List Sphere) (origin : Vec2)
    (size scale : ℝ) (leaf_idx : Nat) (L : List (Nat × Nat)) :
    ∀ (st : List (List Nat) × List (Option (Nat × Nat))) (z : Nat),
    (∀ p ∈ L, in_bounds size (relPos objects origin p.2) →
      cellKey objects origin scale p.2 < st.1.length) →
    (L.foldl (place_step objects origin size scale leaf_idx) st).1.getD z [] =
      st.1.getD z [] ++
        (L.filter (fun p =>
          decide (in_bounds size (relPos objects origin p.2)) &&
            (cellKey objects origin scale p.2 == z))).map Prod.fst := by
  induction L with
  | nil =>
    intro st z _
    simp
  | cons p T ih =>
    intro st z hK
    rw [List.foldl_cons]
    by_cases hb : in_bounds size (relPos objects origin p.2)
    · have hstep : place_step objects origin size scale leaf_idx st p =
          (st.1.set (cellKey objects origin scale p.2)
            (st.1.getD (cellKey objects origin scale p.2) [] ++ [p.1]),
           st.2.set (leaf_idx + cellKey objects origin scale p.2)
             (some ((st.2.getD (leaf_idx + cellKey objects origin scale p.2)
               none).getD (cellCoords objects origin scale p.2)))) := by
        unfold place_step
        rw [if_pos hb]
      rw [hstep]
      rw [ih _ z (by
        intro q hq hbq
        have := hK q (List.mem_cons_of_mem p hq) hbq
        rwa [List.length_set])]
      dsimp only
      rw [List.filter_cons]
      by_cases hz : cellKey objects origin scale p.2 = z
      · have hcond : (decide (in_bounds size (relPos objects origin p.2)) &&
            (cellKey objects origin scale p.2 == z)) = true := by
          simp [hb, hz]
        rw [if_pos hcond, List.map_cons]
        rw [getD_set, if_pos ⟨hz, by
          have := hK p (List.mem_cons_self p T) hb
          omega⟩]
        rw [hz, List.append_assoc]
        simp
      · have hcond : (decide (in_bounds size (relPos objects origin p.2)) &&
            (cellKey objects origin scale p.2 == z)) = false := by
          simp [hz]
        rw [if_neg (by rw [hcond]; exact Bool.false_ne_true)]
        rw [getD_set, if_neg (by tauto)]
    · have hstep : place_step objects origin size scale leaf_idx st p = st := by
        unfold place_step
        rw [if_neg hb]
      rw [hstep]
      rw [ih _ z (fun q hq hbq => hK q (List.mem_cons_of_mem p hq) hbq)]
      rw [List.filter_cons]
      have hcond : (decide (in_bounds size (relPos objects origin p.2)) &&
          (cellKey objects origin scale p.2 == z)) = false := by
        simp [hb]
      rw [if_neg (by rw [hcond]; exact Bool.false_ne_true)]

theorem place_fold_inner_getD_eq (objects : List Sphere) (origin : Vec2)
    (size scale : ℝ) (leaf_idx : Nat) (L : List (Nat × Nat)) :
    ∀ (st : List (List Nat) × List (Option (Nat × Nat))) (j : Nat),
    (∀ p ∈ L, in_bounds size (relPos objects origin p.2) →
      leaf_idx + cellKey objects origin scale p.2 ≠ j) →
    (L.foldl (place_step objects origin size scale leaf_idx) st).2.getD j none =
      st.2.getD j none := by
  induction L with
  | nil =>
    intro st j _
    rfl
  | cons p T ih =>
    intro st j hj
    rw [List.foldl_cons]
    rw [ih _ j (fun q hq hbq => hj q (List.mem_cons_of_mem p hq) hbq)]
    unfold place_step
    by_cases hb : in_bounds size (relPos objects origin p.2)
    · rw [if_pos hb]
      dsimp only
      rw [getD_set, if_neg (by
        intro hcc
        exact hj p (List.mem_cons_self p T) hb hcc.1)]
    · rw [if_neg hb]

theorem place_fold_inner_active (objects : List Sphere) (origin : Vec2)
    (size scale : ℝ) (leaf_idx : Nat) (L : List (Nat × Nat)) :
    ∀ (st : List (List Nat) × List (Option (Nat × Nat))) (z : Nat),
    (∀ p ∈ L, in_bounds size (relPos objects origin p.2) →
      leaf_idx + cellKey objects origin scale p.2 < st.2.length) →
    ((L.foldl (place_step objects origin size scale leaf_idx) st).2.getD
        (leaf_idx + z) none ≠ none ↔
      st.2.getD (leaf_idx + z) none ≠ none ∨
        ∃ p ∈ L, in_bounds size (relPos objects origin p.2) ∧
          cellKey objects origin scale p.2 = z) := by
  induction L with
  | nil =>
    intro st z _
    simp
  | cons p T ih =>
    intro st z hK
    rw [List.foldl_cons]
    by_cases hb : in_bounds size (relPos objects origin p.2)
    · have hstep : place_step objects origin size scale leaf_idx st p =
          (st.1.set (cellKey objects origin scale p.2)
            (st.1.getD (cellKey objects origin scale p.2) [] ++ [p.1]),
           st.2.set (leaf_idx + cellKey objects origin scale p.2)
             (some ((st.2.getD (leaf_idx + cellKey objects origin scale p.2)
               none).getD (cellCoords objects origin scale p.2)))) := by
        unfold place_step
        rw [if_pos hb]
      rw [hstep]
      rw [ih _ z (by
        intro q hq hbq
        have := hK q (List.mem_cons_of_mem p hq) hbq
        dsimp only
        rwa [List.length_set])]
      dsimp only
      rw [getD_set]
      by_cases hz : cellKey objects origin scale p.2 = z
      · rw [if_pos ⟨by rw [hz], by
          have := hK p (List.mem_cons_self p T) hb
          omega⟩]
        simp only [ne_eq, reduceCtorEq, not_false_eq_true, true_or, true_iff]
        right
        exact ⟨p, List.mem_cons_self p T, hb, hz⟩
      · rw [if_neg (by
          intro hcc
          exact hz (by omega))]
        constructor
        · rintro (h | ⟨q, hq, hbq, hkq⟩)
          · exact Or.inl h
          · exact Or.inr ⟨q, List.mem_cons_of_mem p hq, hbq, hkq⟩
        · rintro (h | ⟨q, hq, hbq, hkq⟩)
          · exact Or.inl h
          · rcases List.mem_cons.mp hq with rfl | hq2
            · exact absurd hkq hz
            · exact Or.inr ⟨q, hq2, hbq, hkq⟩
    · have hstep : place_step objects origin size scale leaf_idx st p = st := by
        unfold place_step
        rw [if_neg hb]
      rw [hstep]
      rw [ih _ z (fun q hq hbq => hK q (List.mem_cons_of_mem p hq) hbq)]
      constructor
      · rintro (h | ⟨q, hq, hbq, hkq⟩)
        · exact Or.inl h
        · exact Or.inr ⟨q, List.mem_cons_of_mem p hq, hbq, hkq⟩
      · rintro (h | ⟨q, hq, hbq, hkq⟩)
        · exact Or.inl h
        · rcases List.mem_cons.mp hq with rfl | hq2
          · exact absurd hbq hb
          · exact Or.inr ⟨q, hq2, hbq, hkq⟩

theorem place_fold_good (objects : List Sphere) (origin : Vec2)
    (size scale : ℝ) (leaf_idx depth : Nat) (L : List (Nat × Nat)) :
    ∀ (st : List (List Nat) × List (Option (Nat × Nat))),
    (∀ q c, st.2.getD q none = some c → GoodAt q c) →
    leaf_idx = treeBase depth →
    (∀ p ∈ L, in_bounds size (relPos objects origin p.2) →
      (cellCoords objects origin scale p.2).1 < 2 ^ depth ∧
        (cellCoords objects origin scale p.2).2 < 2 ^ depth) →
    ∀ q c, (L.foldl (place_step objects origin size scale leaf_idx)
        st).2.getD q none = some c → GoodAt q c := by
  induction L with
  | nil =>
    intro st hg _ _
    exact hg
  | cons p T ih =>
    intro st hg hli hcb
    rw [List.foldl_cons]
    refine ih _ ?_ hli
      (fun q hq hbq => hcb q (List.mem_cons_of_mem p hq) hbq)
    intro q c hqc
    unfold place_step at hqc
    by_cases hb : in_bounds size (relPos objects origin p.2)
    · rw [if_pos hb] at hqc
      dsimp only at hqc
      rw [getD_set] at hqc
      by_cases hcc : leaf_idx + cellKey objects origin scale p.2 = q ∧
          q < st.2.length
      · rw [if_pos hcc] at hqc
        obtain ⟨hq, _⟩ := hcc
        cases hold : st.2.getD (leaf_idx + cellKey objects origin scale p.2)
            none with
        | some c1 =>
          rw [hold] at hqc
          simp only [Option.getD_some, Option.some.injEq] at hqc
          subst hqc
          subst hq
          exact hg _ _ hold
        | none =>
          rw [hold] at hqc
          simp only [Option.getD_none, Option.some.injEq] at hqc
          subst hqc
          subst hq
          obtain ⟨hb1, hb2⟩ := hcb p (List.mem_cons_self p T) hb
          have hzlt : cellKey objects origin scale p.2 < 4 ^ depth :=
            zorderIndex_lt depth _ _ hb1 hb2
          have hlev : lev (leaf_idx + cellKey objects origin scale p.2) =
              depth := by
            rw [hli]
            exact lev_base_add depth _ hzlt
          refine ⟨?_, ?_, ?_⟩
          · rw [hlev]
            exact hb1
          · rw [hlev]
            exact hb2
          · rw [hlev, hli]
            rfl
      · rw [if_neg hcc] at hqc
        exact hg _ _ hqc
    · rw [if_neg hb] at hqc
      exact hg _ _ hqc

theorem cellCoords_lt_of_in_bounds (objects : List Sphere) (origin : Vec2)
    (size : ℝ) (depth : Nat) (h : Nat)
    (hb : in_bounds size (relPos objects origin h)) :
    (cellCoords objects origin ((2 ^ depth : ℝ) / size) h).1 < 2 ^ depth ∧
      (cellCoords objects origin ((2 ^ depth : ℝ) / size) h).2 < 2 ^ depth := by
  obtain ⟨hmin, hmax⟩ := hb
  set p := relPos objects origin h with hp
  have hx0 : 0 ≤ p.x := le_trans hmin (min_le_left _ _)
  have hy0 : 0 ≤ p.y := le_trans hmin (min_le_right _ _)
  have hxs : p.x < size := lt_of_le_of_lt (le_max_left _ _) hmax
  have hys : p.y < size := lt_of_le_of_lt (le_max_right _ _) hmax
  have hsize : 0 < size := lt_of_le_of_lt hx0 hxs
  have hscale : 0 < (2 ^ depth : ℝ) / size := by positivity
  have hkey : ∀ t : ℝ, 0 ≤ t → t < size →
      (⌊t * ((2 ^ depth : ℝ) / size)⌋).toNat < 2 ^ depth := by
    intro t ht0 hts
    have hts2 : t * ((2 ^ depth : ℝ) / size) < 2 ^ depth := by
      calc t * ((2 ^ depth : ℝ) / size)
          < size * ((2 ^ depth : ℝ) / size) :=
            mul_lt_mul_of_pos_right hts hscale
        _ = 2 ^ depth := by
            field_simp
    have hfl : ⌊t * ((2 ^ depth : ℝ) / size)⌋ < ((2 ^ depth : ℕ) : ℤ) := by
      rw [Int.floor_lt]
      push_cast
      exact hts2
    have hN : 0 < 2 ^ depth := Nat.pos_pow_of_pos depth (by norm_num)
    omega
  exact ⟨hkey p.x hx0 hxs, hkey p.y hy0 hys⟩

/-! ## Structure of a built index -/

/-- A node is active when its slot in the tree array holds a coordinate. -/
def isActive (t : Quadtree) (q : Nat) : Prop := t.inner.getD q none ≠ none

theorem build_inner_def (pos : Vec2) (size : ℝ) (objects : List Sphere)
    (handles : List Nat) :
    (build_from_objects pos size objects handles).inner =
      (collateLoop (placeFold pos size objects handles).2
        (treeLen objects - 1)).1 := rfl

theorem build_points_def (pos : Vec2) (size : ℝ) (objects : List Sphere)
    (handles : List Nat) :
    (build_from_objects pos size objects handles).points =
      (placeFold pos size objects handles).1 := rfl

theorem build_quads_def (pos : Vec2) (size : ℝ) (objects : List Sphere)
    (handles : List Nat) :
    (build_from_objects pos size objects handles).quads =
      0 :: (collateLoop (placeFold pos size objects handles).2
        (treeLen objects - 1)).2.reverse := rfl

theorem treeBase_mono (a b : Nat) (h : a ≤ b) : treeBase a ≤ treeBase b := by
  induction b with
  | zero =>
    have : a = 0 := by omega
    rw [this]
  | succ n ih =>
    rcases Nat.lt_or_ge a (n + 1) with ha | ha
    · have := ih (by omega)
      have hs : treeBase (n + 1) = 4 * treeBase n + 1 := rfl
      omega
    · have : a = n + 1 := by omega
      rw [this]

theorem treeLen_eq (objects : List Sphere) :
    treeLen objects = treeBase (buildDepth objects + 1) := by
  rw [treeLen, len_for_depth_eq]

theorem pointsLen_eq (objects : List Sphere) :
    pointsLen objects = 4 ^ buildDepth objects := by
  rw [pointsLen, points_len_eq]

theorem leafIdx_eq (objects : List Sphere) :
    leafIdx objects = treeBase (buildDepth objects) := by
  rw [leafIdx, treeLen, pointsLen_eq, leaf_idx_eq]

theorem leafIdx_add_pointsLen (objects : List Sphere) :
    leafIdx objects + pointsLen objects = treeLen objects := by
  rw [leafIdx_eq, pointsLen_eq, treeLen_eq]
  have h1 : treeBase (buildDepth objects + 1) =
      4 * treeBase (buildDepth objects) + 1 := rfl
  have h2 := three_mul_treeBase (buildDepth objects)
  omega

theorem leafIdx_pos (objects : List Sphere) : 1 ≤ leafIdx objects := by
  rw [leafIdx_eq]
  exact treeBase_pos _ (buildDepth_pos objects)

theorem build_inner_length (pos : Vec2) (size : ℝ) (objects : List Sphere)
    (handles : List Nat) :
    (build_from_objects pos size objects handles).inner.length =
      treeLen objects := by
  rw [build_inner_def, collateLoop_length, placeFold, place_fold_inner_length]
  exact List.length_replicate _ _

theorem build_points_length (pos : Vec2) (size : ℝ) (objects : List Sphere)
    (handles : List Nat) :
    (build_from_objects pos size objects handles).points.length =
      pointsLen objects := by
  rw [build_points_def, placeFold, place_fold_points_length]
  exact List.length_replicate _ _

theorem build_cellKey_lt (pos : Vec2) (size : ℝ) (objects : List Sphere)
    (h : Nat) (hb : in_bounds size (relPos objects pos h)) :
    cellKey objects pos (buildScale size objects) h < pointsLen objects := by
  obtain ⟨h1, h2⟩ :=
    cellCoords_lt_of_in_bounds objects pos size (buildDepth objects) h hb
  rw [pointsLen_eq]
  exact zorderIndex_lt _ _ _ h1 h2

theorem build_points_getD (pos : Vec2) (size : ℝ) (objects : List Sphere)
    (handles : List Nat) (z : Nat) :
    (build_from_objects pos size objects handles).points.getD z [] =
      (handles.enum.filter (fun p =>
        decide (in_bounds size (relPos objects pos p.2)) &&
          (cellKey objects pos (buildScale size objects) p.2 == z))).map
        Prod.fst := by
  rw [build_points_def, placeFold, place_fold_points_getD]
  · rw [getD_replicate]
    by_cases hz : z < pointsLen objects <;> simp [hz]
  · intro p _ hbp
    rw [List.length_replicate]
    exact build_cellKey_lt pos size objects p.2 hbp

theorem build_leaf_untouched_by_collate (pos : Vec2) (size : ℝ)
    (objects : List Sphere) (handles : List Nat) (z : Nat) :
    (build_from_objects pos size objects handles).inner.getD
        (leafIdx objects + z) none =
      (placeFold pos size objects handles).2.getD (leafIdx objects + z)
        none := by
  rw [build_inner_def]
  apply collateLoop_unwritten
  intro m hm1 hm2 hcc
  have htl : treeLen objects = 4 * treeBase (buildDepth objects) + 1 := by
    rw [treeLen_eq]
    rfl
  have hli : leafIdx objects = treeBase (buildDepth objects) := leafIdx_eq _
  have hpos : 1 ≤ treeBase (buildDepth objects) :=
    treeBase_pos _ (buildDepth_pos objects)
  omega

theorem build_leaf_active_iff (pos : Vec2) (size : ℝ) (objects : List Sphere)
    (handles : List Nat) (z : Nat) :
    isActive (build_from_objects pos size objects handles)
        (leafIdx objects + z) ↔
      (build_from_objects pos size objects handles).points.getD z [] ≠ [] := by
  rw [isActive, build_leaf_untouched_by_collate, placeFold]
  rw [place_fold_inner_active]
  · rw [getD_replicate]
    have hinit : (if leafIdx objects + z < treeLen objects
        then (none : Option (Nat × Nat)) else none) = none := by
      by_cases hc : leafIdx objects + z < treeLen objects <;> simp [hc]
    rw [hinit]
    simp only [ne_eq, not_true_eq_false, false_or]
    rw [build_points_getD]
    constructor
    · rintro ⟨p, hp, hbp, hkp⟩
      intro hnil
      rw [List.map_eq_nil_iff, List.filter_eq_nil_iff] at hnil
      exact hnil p hp (by simp [hbp, hkp])
    · intro hne
      by_contra hc
      apply hne
      rw [List.map_eq_nil_iff, List.filter_eq_nil_iff]
      intro p hp
      simp only [Bool.and_eq_true, decide_eq_true_eq, beq_iff_eq, not_and]
      intro hbp hkp
      exact hc ⟨p, hp, hbp, hkp⟩
  · intro p _ hbp
    rw [List.length_replicate]
    have := build_cellKey_lt pos size objects p.2 hbp
    have := leafIdx_add_pointsLen objects
    omega

theorem build_mem_quads (pos : Vec2) (size : ℝ) (objects : List Sphere)
    (handles : List Nat) (q : Nat) :
    q ∈ (build_from_objects pos size objects handles).quads ↔
      q = 0 ∨ (1 ≤ q ∧ isActive (build_from_objects pos size objects handles) q) := by
  rw [build_quads_def, List.mem_cons, List.mem_reverse, collateLoop_mem]
  constructor
  · rintro (rfl | ⟨h1, h2, h3⟩)
    · exact Or.inl rfl
    · exact Or.inr ⟨h1, by rw [isActive, build_inner_def]; exact h3⟩
  · rintro (rfl | ⟨h1, h2⟩)
    · exact Or.inl rfl
    · rw [isActive, build_inner_def] at h2
      refine Or.inr ⟨h1, ?_, h2⟩
      have hlen : q < treeLen objects := by
        have := getD_ne_d_lt _ _ _ h2
        rwa [collateLoop_length, placeFold, place_fold_inner_length,
          List.length_replicate] at this
      omega

theorem build_quads_sorted (pos : Vec2) (size : ℝ) (objects : List Sphere)
    (handles : List Nat) :
    List.Pairwise (fun a b => a < b)
      (build_from_objects pos size objects handles).quads := by
  rw [build_quads_def]
  refine List.Pairwise.cons ?_ ?_
  · intro b hb
    rw [List.mem_reverse, collateLoop_mem] at hb
    omega
  · rw [List.pairwise_reverse]
    exact collateLoop_desc _ _

theorem build_parent_active (pos : Vec2) (size : ℝ) (objects : List Sphere)
    (handles : List Nat) (q : Nat) (h1 : 1 ≤ q)
    (ha : isActive (build_from_objects pos size objects handles) q) :
    isActive (build_from_objects pos size objects handles) ((q - 1) / 4) := by
  rw [isActive, build_inner_def] at ha ⊢
  have hlen : q < treeLen objects := by
    have := getD_ne_d_lt _ _ _ ha
    rwa [collateLoop_length, placeFold, place_fold_inner_length,
      List.length_replicate] at this
  exact collateLoop_parent_closed _ _ q h1 (by omega) ha

theorem build_good (pos : Vec2) (size : ℝ) (objects : List Sphere)
    (handles : List Nat) (q : Nat) (c : Nat × Nat)
    (hc : (build_from_objects pos size objects handles).inner.getD q none =
      some c) : GoodAt q c := by
  rw [build_inner_def] at hc
  refine collateLoop_good _ _ ?_ q c hc
  rw [placeFold]
  apply place_fold_good _ _ _ _ _ (buildDepth objects)
  · intro q2 c2 hq2
    rw [getD_replicate] at hq2
    by_cases hcc : q2 < treeLen objects
    · rw [if_pos hcc] at hq2
      exact absurd hq2 (by simp)
    · rw [if_neg hcc] at hq2
      exact absurd hq2 (by simp)
  · exact leafIdx_eq objects
  · intro p _ hbp
    exact cellCoords_lt_of_in_bounds objects pos size (buildDepth objects)
      p.2 hbp

theorem indexOf_lt_of_sorted (l : List Nat)
    (hs : List.Pairwise (fun a b => a < b) l) (a b : Nat) (ha : a ∈ l)
    (hb : b ∈ l) (hab : a < b) : l.indexOf a < l.indexOf b := by
  induction l with
  | nil => cases ha
  | cons x xs ih =>
    obtain ⟨hx, hxs⟩ := List.pairwise_cons.mp hs
    rcases List.mem_cons.mp ha with rfl | ha2
    · have hbx : a ≠ b := by omega
      rw [List.indexOf_cons_self, List.indexOf_cons_ne xs hbx]
      omega
    · have hxa : x < a := hx a ha2
      have hax : x ≠ a := by omega
      have hbx : x ≠ b := by omega
      have hb2 : b ∈ xs := by
        rcases List.mem_cons.mp hb with rfl | h
        · omega
        · exact h
      rw [List.indexOf_cons_ne xs hax, List.indexOf_cons_ne xs hbx]
      exact Nat.succ_lt_succ (ih hxs ha2 hb2)

/-- C7: after every build, (i) every active non-root node's parent
`(q - 1) / 4` is also active, and (ii) the active-node list starts with the
root `0`, is strictly increasing, and every non-root member's parent is a
member appearing strictly before it. -/
theorem build_active_invariants (pos : Vec2) (size : ℝ)
    (objects : List Sphere) (handles : List Nat) :
    (∀ q, 1 ≤ q →
      isActive (build_from_objects pos size objects handles) q →
      isActive (build_from_objects pos size objects handles) ((q - 1) / 4)) ∧
    (build_from_objects pos size objects handles).quads.head? = some 0 ∧
    List.Pairwise (fun a b => a < b)
      (build_from_objects pos size objects handles).quads ∧
    (∀ q ∈ (build_from_objects pos size objects handles).quads, 1 ≤ q →
      (q - 1) / 4 ∈ (build_from_objects pos size objects handles).quads ∧
      (build_from_objects pos size objects handles).quads.indexOf
          ((q - 1) / 4) <
        (build_from_objects pos size objects handles).quads.indexOf q) := by
  refine ⟨build_parent_active pos size objects handles, ?_, ?_, ?_⟩
  · rw [build_quads_def]
    rfl
  · exact build_quads_sorted pos size objects handles
  · intro q hq hq1
    have hact : isActive (build_from_objects pos size objects handles) q := by
      rcases (build_mem_quads pos size objects handles q).mp hq with rfl | h
      · omega
      · exact h.2
    have hpar := build_parent_active pos size objects handles q hq1 hact
    have hmem : (q - 1) / 4 ∈
        (build_from_objects pos size objects handles).quads := by
      rw [build_mem_quads]
      rcases Nat.eq_zero_or_pos ((q - 1) / 4) with h0 | hpos
      · exact Or.inl h0
      · exact Or.inr ⟨hpos, hpar⟩
    refine ⟨hmem, ?_⟩
    exact indexOf_lt_of_sorted _ (build_quads_sorted pos size objects handles)
      _ _ hmem hq (by omega)

/-- C7 witness: the invariants instantiated at a concrete build. -/
theorem build_active_invariants_witness :
    (∀ q, 1 ≤ q →
      isActive (build_from_objects ⟨0, 0⟩ 2 [⟨⟨0, 0⟩, 1, 1⟩] [0]) q →
      isActive (build_from_objects ⟨0, 0⟩ 2 [⟨⟨0, 0⟩, 1, 1⟩] [0])
        ((q - 1) / 4)) ∧
    (build_from_objects ⟨0, 0⟩ 2 [⟨⟨0, 0⟩, 1, 1⟩] [0]).quads.head? = some 0 ∧
    List.Pairwise (fun a b => a < b)
      (build_from_objects ⟨0, 0⟩ 2 [⟨⟨0, 0⟩, 1, 1⟩] [0]).quads ∧
    (∀ q ∈ (build_from_objects ⟨0, 0⟩ 2 [⟨⟨0, 0⟩, 1, 1⟩] [0]).quads, 1 ≤ q →
      (q - 1) / 4 ∈ (build_from_objects ⟨0, 0⟩ 2 [⟨⟨0, 0⟩, 1, 1⟩] [0]).quads ∧
      (build_from_objects ⟨0, 0⟩ 2 [⟨⟨0, 0⟩, 1, 1⟩] [0]).quads.indexOf
          ((q - 1) / 4) <
        (build_from_objects ⟨0, 0⟩ 2 [⟨⟨0, 0⟩, 1, 1⟩] [0]).quads.indexOf q) :=
  build_active_invariants ⟨0, 0⟩ 2 [⟨⟨0, 0⟩, 1, 1⟩] [0]

/-- C5 counterexample: with three objects and an *empty* handle iterable the
build uses depth `ceil_log4(2 * 3) = 2` (node capacity 21), even though
`D = 0` already satisfies `4 ^ D ≥ 2 × |handles| = 0` — the depth is
computed from the object count, not the handle count, and is never `0`. -/
theorem build_depth_ignores_handles :
    buildDepth [⟨0, 0, 0⟩, ⟨0, 0, 0⟩, ⟨0, 0, 0⟩] = 2 ∧
    (build_from_objects 0 1 [⟨0, 0, 0⟩, ⟨0, 0, 0⟩, ⟨0, 0, 0⟩] []).inner.length
      = 21 ∧
    2 * ([] : List Nat).length ≤ 4 ^ (0 : Nat) ∧ (0 : Nat) < 2 := by
  have hlog : Nat.log 2 6 = 2 :=
    Nat.log_eq_of_pow_le_of_lt_pow (by norm_num) (by norm_num)
  have hpow : is_power_of_two 6 = false := by
    unfold is_power_of_two
    rw [hlog]
    rfl
  have hd : buildDepth [⟨0, 0, 0⟩, ⟨0, 0, 0⟩, ⟨0, 0, 0⟩] = 2 := by
    show ceil_log4 (3 * 2) = 2
    have h6 : 3 * 2 = 2 * 3 := by norm_num
    rw [h6, ceil_log4_two_mul 3 (by norm_num), hpow, hlog]
    norm_num
  refine ⟨hd, ?_, by norm_num, by norm_num⟩
  rw [build_inner_length, treeLen, hd]
  rfl

/-- C5 (amended): the depth used by build is `ceil_log4(2 × |objects|)` — a
function of the *object sequence*, independent of the handle iterable — which
is the least `D ≥ 1` with `4 ^ D ≥ 2 × |objects|`; node storage is grown to
`(4 ^ (D + 1) - 1) / 3` slots and bucket storage to `4 ^ D` buckets. -/
theorem build_depth_least (pos : Vec2) (size : ℝ) (objects : List Sphere)
    (handles : List Nat) :
    (build_from_objects pos size objects handles).inner.length =
      len_for_depth (buildDepth objects) ∧
    (build_from_objects pos size objects handles).points.length =
      4 ^ buildDepth objects ∧
    IsLeast {D : Nat | 1 ≤ D ∧ 2 * objects.length ≤ 4 ^ D}
      (buildDepth objects) := by
  refine ⟨build_inner_length pos size objects handles, ?_, ?_⟩
  · rw [build_points_length, pointsLen_eq]
  · rcases Nat.eq_zero_or_pos objects.length with h0 | hpos
    · have hd : buildDepth objects = 1 := by
        unfold buildDepth
        rw [h0]
        exact ceil_log4_zero
      rw [hd]
      constructor
      · simp only [Set.mem_setOf_eq, h0]
        norm_num
      · intro b hb
        exact hb.1
    · have h2 : objects.length * 2 = 2 * objects.length := by ring
      have hleast := ceil_log4_isLeast objects.length hpos
      constructor
      · refine ⟨buildDepth_pos objects, ?_⟩
        show 2 * objects.length ≤ 4 ^ buildDepth objects
        have := hleast.1
        unfold buildDepth
        rw [h2]
        exact this
      · intro b hb
        have := hleast.2 hb.2
        unfold buildDepth
        rw [h2]
        exact this

/-! ## The aggregation engine: `compute` from `space.rs` -/

/-- The parent-slot expression `(quad - 1) / 4` of `compute` evaluated in
`usize` arithmetic: for `quad = 0` the subtraction wraps around `2 ^ 64`,
so the result is `(2 ^ 64 - 1) / 4 = 2 ^ 62 - 1`; every index occurring in
a run is far below `2 ^ 64`, where this is exactly the machine value (debug
builds panic on the subtraction instead). -/
def parent_slot (q : Nat) : Nat :=
  if q = 0 then (2 ^ 64 - 1) / 4 else (q - 1) / 4

theorem parent_slot_pos (q : Nat) (hq : 1 ≤ q) :
    parent_slot q = (q - 1) / 4 := by
  rw [parent_slot, if_neg (by omega)]

/-- One iteration of Pass 1 of `compute` (space.rs lines 197-209): fold the
leaf bucket into the node's own aggregate when `quad >= leaf_idx`, then
***unconditionally*** combine the node's aggregate into the slot addressed
by `(quad - 1) / 4` — for the root quad `0` that slot is `2 ^ 62 - 1`,
outside the buffer (`List.set` out of range is the identity, matching a
release-build write that misses every live slot). -/
def pass1_step (objects : List Sphere) (points : List (List Nat))
    (leaf_idx : Nat) (sums : List Sphere) (q : Nat) : List Sphere :=
  let sums2 :=
    if leaf_idx ≤ q then
      sums.set q ((points.getD (q - leaf_idx) []).foldl
        (fun acc id => acc.combine (objects.getD id default))
        (sums.getD q default))
    else sums
  sums2.set (parent_slot q)
    ((sums2.getD (parent_slot q) default).combine (sums2.getD q default))

/-- Pass 1 of `compute`: iterate the active-node list in reverse over a
freshly grown (all-default) aggregate buffer of `tree.inner.len()` slots. -/
def pass1 (objects : List Sphere) (t : Quadtree) : List Sphere :=
  t.quads.reverse.foldl
    (pass1_step objects t.points (t.inner.length - t.points.length))
    (List.replicate t.inner.length default)

/-- The adjacency test of Pass 2 (space.rs lines 222-225):
`(candidate_coords - coords).abs().component_max() <= 1` in `i32`
arithmetic. -/
def near_test (a b : Nat × Nat) : Prop :=
  max (((a.1 : ℤ) - (b.1 : ℤ)).natAbs) (((a.2 : ℤ) - (b.2 : ℤ)).natAbs) ≤ 1

instance near_test_dec (a b : Nat × Nat) : Decidable (near_test a b) := by
  unfold near_test
  infer_instance

/-- `Quadtree::children` (space.rs lines 44-46): the active members of
`parent * 4 + 1 .. parent * 4 + 5`. -/
def children (t : Quadtree) (parent : Nat) : List Nat :=
  (List.range' (parent * 4 + 1) 4).filter
    (fun i => (t.inner.getD i none).isSome)

/-- Processing one candidate in Pass 2 (space.rs lines 217-235): push near
candidates onto the current node's near-list, add the far candidates'
aggregate effect to the current node's accumulator. -/
def pass2_cand_step (sums : List Sphere) (q : Nat) (coords : Nat × Nat)
    (t : Quadtree) (st : List (List Nat) × List Vec2) (r : Nat) :
    List (List Nat) × List Vec2 :=
  if near_test ((t.inner.getD r none).getD (0, 0)) coords then
    (st.1.set q (st.1.getD q [] ++ [r]), st.2)
  else
    (st.1, st.2.set q (st.2.getD q 0 +
      (sums.getD r default).effect_on (sums.getD q default)))

/-- One iteration of Pass 2 (space.rs lines 214-236): the candidates are the
active children of every node in the parent's near-list. -/
def pass2_step (t : Quadtree) (sums : List Sphere)
    (st : List (List Nat) × List Vec2) (q : Nat) :
    List (List Nat) × List Vec2 :=
  let coords := (t.inner.getD q none).getD (0, 0)
  ((st.1.getD (parent_slot q) []).flatMap (children t)).foldl
    (pass2_cand_step sums q coords t) st

/-- Pass 2 of `compute`: seed the root's near-list with `[0]`
(space.rs line 211), then iterate `tree.quads[1..]`. -/
def pass2 (t : Quadtree) (sums : List Sphere) :
    List (List Nat) × List Vec2 :=
  (t.quads.drop 1).foldl (pass2_step t sums)
    ((List.replicate t.inner.length ([] : List Nat)).set 0 [0],
      List.replicate t.inner.length (0 : Vec2))

/-- `tuple_combinations` over a bucket: all ordered pairs `(a, b)` with `a`
strictly before `b` in the list. -/
def pairsList : List Nat → List (Nat × Nat)
  | [] => []
  | x :: xs => xs.map (fun y => (x, y)) ++ pairsList xs

/-- The neighbour resolution of Pass 3 (space.rs lines 249-261): for each
body of the current bucket, either one aggregate-to-point evaluation (when
the neighbour bucket holds more than 24 bodies) or direct pairwise
evaluation against every body of the neighbour bucket. -/
def pass3_neighbour_fold (objects : List Sphere) (points : List (List Nat))
    (leaf_idx : Nat) (sums : List Sphere) (target : List Nat)
    (field : List Vec2) (nb : Nat) : List Vec2 :=
  target.foldl (fun fld pt =>
    if 24 < (points.getD (nb - leaf_idx) []).length then
      fld.set pt (fld.getD pt 0 +
        (sums.getD nb default).effect_on (objects.getD pt default))
    else
      (points.getD (nb - leaf_idx) []).foldl
        (fun fld2 src => fld2.set pt (fld2.getD pt 0 +
          (objects.getD src default).effect_on (objects.getD pt default)))
        fld) field

/-- One iteration of Pass 3 (space.rs lines 238-273): propagate the parent
accumulator, then, for leaves, resolve neighbour buckets, intra-bucket
pairs, and apply the accumulated acceleration to every contained body. -/
def pass3_step (objects : List Sphere) (t : Quadtree) (sums : List Sphere)
    (nears : List (List Nat)) (leaf_idx : Nat)
    (st : List Vec2 × List Vec2) (q : Nat) : List Vec2 × List Vec2 :=
  let accs := st.1.set q (st.1.getD q 0 + st.1.getD (parent_slot q) 0)
  if q < leaf_idx then (accs, st.2)
  else
    let target := t.points.getD (q - leaf_idx) []
    let field := ((nears.getD q []).filter (fun r => r != q)).foldl
      (pass3_neighbour_fold objects t.points leaf_idx sums target) st.2
    let field2 := (pairsList target).foldl
      (fun fld ab =>
        let fld1 := fld.set ab.1 (fld.getD ab.1 0 +
          (objects.getD ab.2 default).effect_on (objects.getD ab.1 default))
        fld1.set ab.2 (fld1.getD ab.2 0 +
          (objects.getD ab.1 default).effect_on (objects.getD ab.2 default)))
      field
    let field3 := target.foldl
      (fun fld pt => fld.set pt (fld.getD pt 0 + accs.getD q 0)) field2
    (accs, field3)

/-- `compute` (space.rs lines 180-274): Pass 1 (bottom-up sums), Pass 2
(near/far partition and far-field accumulators), Pass 3 (propagate and
resolve into the caller's force array), returning the final force array. -/
def compute (objects : List Sphere) (t : Quadtree) (field : List Vec2) :
    List Vec2 :=
  let leaf_idx := t.inner.length - t.points.length
  let sums := pass1 objects t
  let st2 := pass2 t sums
  ((t.quads.drop 1).foldl (pass3_step objects t sums st2.1 leaf_idx)
    (st2.2, field)).2

theorem collateLoop_replicate_none (m : Nat) :
    ∀ i, collateLoop (List.replicate m none) i =
      (List.replicate m none, []) := by
  intro i
  induction i with
  | zero => rfl
  | succ n ih =>
    rw [collateLoop_succ_none, ih]
    rw [getD_replicate]
    by_cases h : n + 1 < m <;> simp [h]

theorem build_empty_handles_quads (pos : Vec2) (size : ℝ)
    (objects : List Sphere) :
    (build_from_objects pos size objects []).quads = [0] := by
  rw [build_quads_def]
  have he : ([] : List Nat).enum = [] := rfl
  have hpf : (placeFold pos size objects []).2 =
      List.replicate (treeLen objects) none := by
    rw [placeFold, he, List.foldl_nil]
  rw [hpf, collateLoop_replicate_none]
  rfl

/-- C3 is violated at the root (code bug): after any build the active list
contains the root `0`, Pass 1 applies the parent combine to every member of
the list unconditionally, and for `quad = 0` the slot computation
`(quad - 1) / 4` underflows in `usize`, addressing slot `2 ^ 62 - 1`, far
outside the aggregate buffer (here of length 5 for the empty build). -/
theorem pass1_root_parent_slot_out_of_bounds :
    (build_from_objects 0 1 [] []).quads = [0] ∧
    parent_slot 0 = 2 ^ 62 - 1 ∧
    (build_from_objects 0 1 [] []).inner.length = 5 ∧
    (build_from_objects 0 1 [] []).inner.length ≤ parent_slot 0 := by
  have hd : buildDepth ([] : List Sphere) = 1 := by
    unfold buildDepth
    exact ceil_log4_zero
  have hlen : (build_from_objects 0 1 [] []).inner.length = 5 := by
    rw [build_inner_length, treeLen, hd]
    rfl
  have hps : parent_slot 0 = 2 ^ 62 - 1 := by
    rw [parent_slot, if_pos rfl]
    norm_num
  refine ⟨build_empty_handles_quads 0 1 [], hps, hlen, ?_⟩
  rw [hlen, hps]
  norm_num

/-- C4: building with an empty handle set (after a clear) yields an active
list containing only the root, and running the aggregation engine on a
pre-zeroed force array of any length returns it unchanged — an all-zero
force array: passes 2 and 3 iterate `quads[1..] = []`, and nothing ever
writes to the force array. -/
theorem compute_empty_handles (pos : Vec2) (size : ℝ)
    (objects : List Sphere) (n : Nat) :
    (build_from_objects pos size objects []).quads = [0] ∧
    compute objects (build_from_objects pos size objects [])
      (List.replicate n 0) = List.replicate n 0 := by
  refine ⟨build_empty_handles_quads pos size objects, ?_⟩
  rw [compute, build_empty_handles_quads pos size objects]
  rfl

/-- C5 witness: the amended depth law at a concrete input (two objects,
empty handle set): capacity 5 nodes, 4 buckets, and depth 1 is least. -/
theorem build_depth_least_witness :
    (build_from_objects 0 1 [⟨0, 0, 0⟩, ⟨0, 0, 0⟩] []).inner.length =
      len_for_depth (buildDepth [⟨0, 0, 0⟩, ⟨0, 0, 0⟩]) ∧
    (build_from_objects 0 1 [⟨0, 0, 0⟩, ⟨0, 0, 0⟩] []).points.length =
      4 ^ buildDepth [⟨0, 0, 0⟩, ⟨0, 0, 0⟩] ∧
    IsLeast {D : Nat | 1 ≤ D ∧
        2 * ([⟨0, 0, 0⟩, ⟨0, 0, 0⟩] : List Sphere).length ≤ 4 ^ D}
      (buildDepth [⟨0, 0, 0⟩, ⟨0, 0, 0⟩]) :=
  build_depth_least 0 1 [⟨0, 0, 0⟩, ⟨0, 0, 0⟩] []

theorem buildDepth_two (a b : Sphere) : buildDepth [a, b] = 1 := by
  have hlog : Nat.log 2 4 = 2 := by
    rw [show (4 : ℕ) = 2 ^ 2 by norm_num, Nat.log_pow (by norm_num)]
  have hpow : is_power_of_two 4 = true := by
    unfold is_power_of_two
    rw [hlog]
    rfl
  show ceil_log4 (2 * 2) = 1
  rw [ceil_log4_two_mul 2 (by norm_num)]
  norm_num [hpow, hlog]

/-- C6 is violated (code bug): building two bodies with the single handle
`[1]` places the body `objects[1]` (position `(1,1)`, grid cell key 3), but
the entry stored in that leaf bucket is `0` — the position of the handle
inside the handle iterable (`.map(...).enumerate()` discards the handle) —
not the handle `1` itself. -/
theorem bucket_stores_enumeration_position :
    (build_from_objects ⟨0, 0⟩ 2
        [⟨⟨0, 0⟩, 1, 1⟩, ⟨⟨1, 1⟩, 1, 1⟩] [1]).points = [[], [], [], [0]] ∧
      (0 : Nat) ≠ 1 := by
  have hd : buildDepth [⟨⟨0, 0⟩, 1, 1⟩, ⟨⟨1, 1⟩, 1, 1⟩] = 1 :=
    buildDepth_two _ _
  have hrel : relPos [⟨⟨0, 0⟩, 1, 1⟩, ⟨⟨1, 1⟩, 1, 1⟩] ⟨0, 0⟩ 1 = ⟨1, 1⟩ := by
    unfold relPos
    show (⟨⟨1, 1⟩, 1, 1⟩ : Sphere).pos - ⟨0, 0⟩ = ⟨1, 1⟩
    rw [Vec2.ext_iff_xy]
    constructor <;> · show (1 : ℝ) - 0 = 1; norm_num
  have hb : in_bounds 2 (relPos [⟨⟨0, 0⟩, 1, 1⟩, ⟨⟨1, 1⟩, 1, 1⟩] ⟨0, 0⟩ 1) := by
    rw [hrel]
    unfold in_bounds
    constructor
    · show (0 : ℝ) ≤ min 1 1
      norm_num
    · show max (1 : ℝ) 1 < 2
      norm_num
  have hscale : buildScale 2 [⟨⟨0, 0⟩, 1, 1⟩, ⟨⟨1, 1⟩, 1, 1⟩] = 1 := by
    rw [buildScale, hd]
    norm_num
  have hcc : cellCoords [⟨⟨0, 0⟩, 1, 1⟩, ⟨⟨1, 1⟩, 1, 1⟩] ⟨0, 0⟩
      (buildScale 2 [⟨⟨0, 0⟩, 1, 1⟩, ⟨⟨1, 1⟩, 1, 1⟩]) 1 = (1, 1) := by
    unfold cellCoords
    rw [hrel, hscale]
    show ((⌊(1 : ℝ) * 1⌋).toNat, (⌊(1 : ℝ) * 1⌋).toNat) = (1, 1)
    norm_num
  have hck : cellKey [⟨⟨0, 0⟩, 1, 1⟩, ⟨⟨1, 1⟩, 1, 1⟩] ⟨0, 0⟩
      (buildScale 2 [⟨⟨0, 0⟩, 1, 1⟩, ⟨⟨1, 1⟩, 1, 1⟩]) 1 = 3 := by
    unfold cellKey
    rw [hcc]
    show zorderIndex 1 1 = 3
    rw [zorderIndex_eq 1 1 (by omega)]
    norm_num [zorderIndex_zero]
  refine ⟨?_, by omega⟩
  rw [build_points_def, placeFold]
  have hpl : pointsLen [⟨⟨0, 0⟩, 1, 1⟩, ⟨⟨1, 1⟩, 1, 1⟩] = 4 := by
    rw [pointsLen, hd]
    rfl
  have htl : treeLen [⟨⟨0, 0⟩, 1, 1⟩, ⟨⟨1, 1⟩, 1, 1⟩] = 5 := by
    rw [treeLen, hd]
    rfl
  rw [hpl, htl]
  have he : ([1] : List Nat).enum = [(0, 1)] := rfl
  rw [he, List.foldl_cons, List.foldl_nil]
  unfold place_step
  dsimp only
  rw [if_pos hb, hck]
  rfl

/-- C9: an entry for the `i`-th supplied handle is recorded in some leaf
bucket iff the designated body's position minus the configured origin lies
in the half-open square `[0, size)` on both axes; out-of-bounds bodies are
silently skipped (the model is a total function: no error path exists, and
the body sequence is not modified — `build` never writes to `objects`). -/
theorem mem_bucket_iff (pos : Vec2) (size : ℝ) (objects : List Sphere)
    (handles : List Nat) (i : Nat) (hi : i < handles.length) :
    (∃ z, i ∈ (build_from_objects pos size objects handles).points.getD z [])
      ↔ in_bounds size (relPos objects pos (handles.getD i 0)) := by
  constructor
  · rintro ⟨z, hz⟩
    rw [build_points_getD, List.mem_map] at hz
    obtain ⟨p, hpmem, hp1⟩ := hz
    rw [List.mem_filter] at hpmem
    obtain ⟨hpenum, hpcond⟩ := hpmem
    have hsome : handles[p.1]? = some p.2 :=
      List.mem_enum_iff_getElem?.mp hpenum
    simp only [Bool.and_eq_true, decide_eq_true_eq, beq_iff_eq] at hpcond
    have hgd : handles.getD p.1 0 = p.2 := by
      rw [List.getD_eq_getElem?_getD, hsome]
      rfl
    rw [← hp1, hgd]
    exact hpcond.1
  · intro hb
    refine ⟨cellKey objects pos (buildScale size objects)
      (handles.getD i 0), ?_⟩
    rw [build_points_getD, List.mem_map]
    refine ⟨(i, handles.getD i 0), ?_, rfl⟩
    rw [List.mem_filter]
    constructor
    · rw [List.mem_enum_iff_getElem?]
      show handles[i]? = some (handles.getD i 0)
      rw [List.getD_eq_getElem?_getD, List.getElem?_eq_getElem hi]
      rfl
    · simp only [Bool.and_eq_true, decide_eq_true_eq, beq_iff_eq]
      exact ⟨hb, trivial⟩

/-- C9 witness: with origin `(0,0)` and `size = 2`, the body at `(1, 1)`
(strictly inside, the `size - ε` case) is placed and the body at `(2, 0)`
(exactly at `size` on the x axis) is excluded — the half-open interval
test, with no error raised. -/
theorem mem_bucket_iff_witness :
    (∃ z, 0 ∈ (build_from_objects ⟨0, 0⟩ 2
      [⟨⟨1, 1⟩, 1, 1⟩, ⟨⟨2, 0⟩, 1, 1⟩] [0, 1]).points.getD z []) ∧
    ¬(∃ z, 1 ∈ (build_from_objects ⟨0, 0⟩ 2
      [⟨⟨1, 1⟩, 1, 1⟩, ⟨⟨2, 0⟩, 1, 1⟩] [0, 1]).points.getD z []) := by
  constructor
  · apply (mem_bucket_iff ⟨0, 0⟩ 2 [⟨⟨1, 1⟩, 1, 1⟩, ⟨⟨2, 0⟩, 1, 1⟩] [0, 1] 0
      (by norm_num)).mpr
    show in_bounds 2 (relPos [⟨⟨1, 1⟩, 1, 1⟩, ⟨⟨2, 0⟩, 1, 1⟩] ⟨0, 0⟩ 0)
    have hrel : relPos [⟨⟨1, 1⟩, 1, 1⟩, ⟨⟨2, 0⟩, 1, 1⟩] ⟨0, 0⟩ 0 = ⟨1, 1⟩ := by
      unfold relPos
      show (⟨⟨1, 1⟩, 1, 1⟩ : Sphere).pos - ⟨0, 0⟩ = ⟨1, 1⟩
      rw [Vec2.ext_iff_xy]
      constructor <;> · show (1 : ℝ) - 0 = 1; norm_num
    rw [hrel]
    unfold in_bounds
    constructor
    · show (0 : ℝ) ≤ min 1 1
      norm_num
    · show max (1 : ℝ) 1 < 2
      norm_num
  · intro hc
    have hb := (mem_bucket_iff ⟨0, 0⟩ 2 [⟨⟨1, 1⟩, 1, 1⟩, ⟨⟨2, 0⟩, 1, 1⟩]
      [0, 1] 1 (by norm_num)).mp hc
    have hrel : relPos [⟨⟨1, 1⟩, 1, 1⟩, ⟨⟨2, 0⟩, 1, 1⟩] ⟨0, 0⟩ 1 = ⟨2, 0⟩ := by
      unfold relPos
      show (⟨⟨2, 0⟩, 1, 1⟩ : Sphere).pos - ⟨0, 0⟩ = ⟨2, 0⟩
      rw [Vec2.ext_iff_xy]
      constructor
      · show (2 : ℝ) - 0 = 2
        norm_num
      · show (0 : ℝ) - 0 = 0
        norm_num
    rw [show ([0, 1] : List Nat).getD 1 0 = 1 from rfl, hrel] at hb
    unfold in_bounds at hb
    obtain ⟨h1, h2⟩ := hb
    have : max (2 : ℝ) 0 = 2 := by norm_num
    rw [this] at h2
    norm_num at h2

/-! ## Pass 1 mass accounting -/

theorem getD_mem {α : Type} (l : List α) (i : Nat) (d : α)
    (h : i < l.length) : l.getD i d ∈ l := by
  rw [List.getD_eq_getElem?_getD, List.getElem?_eq_getElem h]
  exact List.getElem_mem h

theorem combine_mass_ite (a b : Sphere) :
    (a.combine b).mass = if 0 < b.mass then a.mass + b.mass else a.mass := by
  unfold Sphere.combine
  by_cases h : 0 < b.mass <;> simp [h]

theorem combine_mass (a b : Sphere) (hb : 0 ≤ b.mass) :
    (a.combine b).mass = a.mass + b.mass := by
  rw [combine_mass_ite]
  by_cases h : 0 < b.mass
  · rw [if_pos h]
  · have : b.mass = 0 := le_antisymm (not_lt.mp h) hb
    rw [if_neg h, this, add_zero]

theorem combine_mass_nonneg (a b : Sphere) (ha : 0 ≤ a.mass)
    (hb : 0 ≤ b.mass) : 0 ≤ (a.combine b).mass := by
  rw [combine_mass a b hb]
  linarith

theorem bucket_fold_mass (objects : List Sphere)
    (hm' : ∀ id, 0 ≤ (objects.getD id default).mass) (l : List Nat) :
    ∀ acc : Sphere,
    (l.foldl (fun a id => a.combine (objects.getD id default)) acc).mass =
      acc.mass + (l.map (fun id => (objects.getD id default).mass)).sum := by
  induction l with
  | nil =>
    intro acc
    simp
  | cons id T ih =>
    intro acc
    rw [List.foldl_cons, ih, List.map_cons, List.sum_cons,
      combine_mass _ _ (hm' id)]
    ring

/-- Total mass currently held in a set of aggregate-buffer slots. -/
def msum (sums : List Sphere) (P : List Nat) : ℝ :=
  (P.map (fun j => (sums.getD j default).mass)).sum

/-- Total mass of the bodies recorded in one leaf bucket (the recorded ids
index the object sequence the engine evaluates, i.e. `objects[point]`). -/
def bucketMassSum (objects : List Sphere) (points : List (List Nat))
    (z : Nat) : ℝ :=
  ((points.getD z []).map (fun id => (objects.getD id default).mass)).sum

theorem msum_append (sums : List Sphere) (P Q : List Nat) :
    msum sums (P ++ Q) = msum sums P + msum sums Q := by
  unfold msum
  rw [List.map_append, List.sum_append]

theorem msum_single (sums : List Sphere) (j : Nat) :
    msum sums [j] = (sums.getD j default).mass := by
  unfold msum
  simp

theorem msum_set_not_mem (sums : List Sphere) (P : List Nat) (j0 : Nat)
    (v : Sphere) (hj : j0 ∉ P) :
    msum (sums.set j0 v) P = msum sums P := by
  unfold msum
  induction P with
  | nil => rfl
  | cons a T ih =>
    have hja : j0 ≠ a := fun h => hj (by rw [h]; exact List.mem_cons_self a T)
    rw [List.map_cons, List.map_cons, List.sum_cons, List.sum_cons,
      ih (fun h => hj (List.mem_cons_of_mem a h)),
      getD_set_ne _ _ _ _ _ hja]

theorem msum_set_mem (sums : List Sphere) (P : List Nat) (j0 : Nat)
    (v : Sphere) (hnd : P.Nodup) (hj : j0 ∈ P) (hlt : j0 < sums.length) :
    msum (sums.set j0 v) P =
      msum sums P + v.mass - (sums.getD j0 default).mass := by
  induction P with
  | nil => cases hj
  | cons a T ih =>
    obtain ⟨hna, hndT⟩ := List.nodup_cons.mp hnd
    rcases List.mem_cons.mp hj with rfl | hjT
    · unfold msum
      rw [List.map_cons, List.map_cons, List.sum_cons, List.sum_cons]
      have h1 : (sums.set j0 v).getD j0 default = v :=
        getD_set_self _ _ _ _ hlt
      have h2 : msum (sums.set j0 v) T = msum sums T :=
        msum_set_not_mem sums T j0 v hna
      unfold msum at h2
      rw [h1, h2]
      ring
    · have haj : a ≠ j0 := fun h => hna (h ▸ hjT)
      unfold msum
      rw [List.map_cons, List.map_cons, List.sum_cons, List.sum_cons]
      have h1 : (sums.set j0 v).getD a default = sums.getD a default :=
        getD_set_ne _ _ _ _ _ (fun h => haj h.symm)
      have h2 := ih hndT hjT
      unfold msum at h2
      rw [h1, h2]
      ring

theorem pass1_fold_length (objects : List Sphere) (points : List (List Nat))
    (leaf_idx : Nat) (T : List Nat) (sums0 : List Sphere) :
    (T.foldr (fun q s => pass1_step objects points leaf_idx s q)
      sums0).length = sums0.length := by
  induction T with
  | nil => rfl
  | cons q T ih =>
    rw [List.foldr_cons]
    have hstep : ∀ (s : List Sphere) (q2 : Nat),
        (pass1_step objects points leaf_idx s q2).length = s.length := by
      intro s q2
      unfold pass1_step
      by_cases h : leaf_idx ≤ q2 <;> simp [h]
    rw [hstep, ih]

/-- The invariant of Pass 1's reverse sweep: after processing the suffix `T`
of the (sorted, parent-closed) active list, the total mass held by the
unprocessed prefix `P` has grown by exactly the bucket masses of the leaf
members of `T`. -/
theorem pass1_inv (objects : List Sphere) (points : List (List Nat))
    (leaf_idx : Nat) (hm' : ∀ id, 0 ≤ (objects.getD id default).mass) :
    ∀ (T P : List Nat) (sums0 : List Sphere),
    List.Pairwise (fun a b => a < b) (P ++ T) →
    (∀ q ∈ T, 1 ≤ q) →
    (∀ q ∈ T, (q - 1) / 4 ∈ P ++ T) →
    (∀ j ∈ P ++ T, j < sums0.length) →
    (∀ q ∈ T, (sums0.getD q default).mass = 0) →
    (∀ j, 0 ≤ (sums0.getD j default).mass) →
    (∀ j, 0 ≤ ((T.foldr (fun q s => pass1_step objects points leaf_idx s q)
        sums0).getD j default).mass) ∧
    msum (T.foldr (fun q s => pass1_step objects points leaf_idx s q) sums0)
        P =
      msum sums0 P +
        ((T.filter (fun q => decide (leaf_idx ≤ q))).map
          (fun q => bucketMassSum objects points (q - leaf_idx))).sum := by
  intro T
  induction T with
  | nil =>
    intro P sums0 _ _ _ _ _ h0
    exact ⟨h0, by simp⟩
  | cons q T ih =>
    intro P sums0 hsorted hT1 hclos hlen hzero h0
    have hassoc : P ++ q :: T = (P ++ [q]) ++ T := by
      rw [List.append_assoc]
      rfl
    obtain ⟨ihnn, ihms⟩ := ih (P ++ [q]) sums0 (by rwa [← hassoc])
      (fun x hx => hT1 x (List.mem_cons_of_mem q hx))
      (fun x hx => by
        rw [← hassoc]
        exact hclos x (List.mem_cons_of_mem q hx))
      (fun j hj => hlen j (by rw [hassoc]; exact hj))
      (fun x hx => hzero x (List.mem_cons_of_mem q hx)) h0
    set S' := T.foldr (fun q2 s => pass1_step objects points leaf_idx s q2)
      sums0 with hS'
    have hlenS' : S'.length = sums0.length := pass1_fold_length _ _ _ _ _
    have hq1 : 1 ≤ q := hT1 q (List.mem_cons_self q T)
    have hqlen : q < sums0.length :=
      hlen q (List.mem_append_right P (List.mem_cons_self q T))
    have hqT : ∀ x ∈ T, q < x := by
      intro x hx
      have := (List.pairwise_append.mp hsorted).2.1
      exact (List.pairwise_cons.mp this).1 x hx
    have hPq : ∀ p2 ∈ P, p2 < q := by
      intro p2 hp2
      exact (List.pairwise_append.mp hsorted).2.2 p2 hp2 q
        (List.mem_cons_self q T)
    have hqnotP : q ∉ P := fun h => by
      have := hPq q h
      omega
    have hpar : (q - 1) / 4 ∈ P := by
      have hmem := hclos q (List.mem_cons_self q T)
      have hlt : (q - 1) / 4 < q := by omega
      rcases List.mem_append.mp hmem with h | h
      · exact h
      · exfalso
        rcases List.mem_cons.mp h with heq | hT
        · omega
        · have := hqT _ hT
          omega
    have hparlen : (q - 1) / 4 < sums0.length :=
      hlen _ (List.mem_append_left _ hpar)
    have hPnd : P.Nodup := by
      have := (List.pairwise_append.mp hsorted).1
      exact this.imp Nat.ne_of_lt
    have hps : parent_slot q = (q - 1) / 4 := parent_slot_pos q hq1
    -- the step
    rw [List.foldr_cons, ← hS']
    unfold pass1_step
    rw [hps]
    set mq := (S'.getD q default).mass with hmq
    by_cases hleaf : leaf_idx ≤ q
    · rw [if_pos hleaf]
      set bsum := ((points.getD (q - leaf_idx) []).map
        (fun id => (objects.getD id default).mass)).sum with hbsum
      have hbs0 : 0 ≤ bsum := List.sum_nonneg (by
        intro x hx
        rw [List.mem_map] at hx
        obtain ⟨id, _, rfl⟩ := hx
        exact hm' id)
      set S2 := S'.set q ((points.getD (q - leaf_idx) []).foldl
        (fun acc id => acc.combine (objects.getD id default))
        (S'.getD q default)) with hS2
      have hS2q : (S2.getD q default).mass = mq + bsum := by
        rw [hS2, getD_set_self _ _ _ _ (by omega),
          bucket_fold_mass objects hm']
      have hS2other : ∀ j, j ≠ q → S2.getD j default = S'.getD j default := by
        intro j hj
        rw [hS2, getD_set_ne _ _ _ _ _ (fun h => hj h.symm)]
      have hS2len : S2.length = sums0.length := by
        rw [hS2, List.length_set, hlenS']
      have hS2nn : ∀ j, 0 ≤ (S2.getD j default).mass := by
        intro j
        by_cases hj : j = q
        · rw [hj, hS2q]
          have := ihnn q
          rw [← hmq] at this
          linarith
        · rw [hS2other j hj]
          exact ihnn j
      have hparq : (q - 1) / 4 ≠ q := by omega
      have hcomb : ((S2.getD ((q - 1) / 4) default).combine
          (S2.getD q default)).mass =
          (S2.getD ((q - 1) / 4) default).mass + (mq + bsum) := by
        rw [combine_mass _ _ (hS2nn q), hS2q]
      constructor
      · intro j
        rw [getD_set]
        by_cases hc : (q - 1) / 4 = j ∧ j < S2.length
        · rw [if_pos hc]
          rw [hcomb]
          have h1 := hS2nn ((q - 1) / 4)
          have h2 := ihnn q
          rw [← hmq] at h2
          linarith
        · rw [if_neg hc]
          exact hS2nn j
      · rw [msum_set_mem S2 P ((q - 1) / 4) _ hPnd hpar (by omega), hcomb]
        have hmsS2 : msum S2 P = msum S' P := by
          rw [hS2]
          exact msum_set_not_mem _ _ _ _ hqnotP
        have hmsP : msum S' (P ++ [q]) = msum S' P + mq := by
          rw [msum_append, msum_single, hmq]
        have hz0 : msum sums0 (P ++ [q]) = msum sums0 P := by
          rw [msum_append, msum_single,
            hzero q (List.mem_cons_self q T), add_zero]
        have hfilter : ((q :: T).filter (fun x => decide (leaf_idx ≤ x))).map
            (fun x => bucketMassSum objects points (x - leaf_idx)) =
            bucketMassSum objects points (q - leaf_idx) ::
              ((T.filter (fun x => decide (leaf_idx ≤ x))).map
                (fun x => bucketMassSum objects points (x - leaf_idx))) := by
          rw [List.filter_cons, if_pos (by simpa using hleaf), List.map_cons]
        rw [hfilter, List.sum_cons]
        have hbeq : bucketMassSum objects points (q - leaf_idx) = bsum := rfl
        rw [hz0] at ihms
        have : msum S' P = msum sums0 P +
            ((T.filter (fun x => decide (leaf_idx ≤ x))).map
              (fun x => bucketMassSum objects points (x - leaf_idx))).sum
              - mq := by
          rw [← ihms, hmsP]
          ring
        rw [hmsS2, this, hbeq]
        ring
    · rw [if_neg hleaf]
      have hcomb : ((S'.getD ((q - 1) / 4) default).combine
          (S'.getD q default)).mass =
          (S'.getD ((q - 1) / 4) default).mass + mq := by
        rw [combine_mass _ _ (by rw [← hmq]; exact ihnn q), hmq]
      constructor
      · intro j
        rw [getD_set]
        by_cases hc : (q - 1) / 4 = j ∧ j < S'.length
        · rw [if_pos hc, hcomb]
          have h1 := ihnn ((q - 1) / 4)
          have h2 := ihnn q
          rw [← hmq] at h2
          linarith
        · rw [if_neg hc]
          exact ihnn j
      · rw [msum_set_mem S' P ((q - 1) / 4) _ hPnd hpar (by omega), hcomb]
        have hmsP : msum S' (P ++ [q]) = msum S' P + mq := by
          rw [msum_append, msum_single, hmq]
        have hz0 : msum sums0 (P ++ [q]) = msum sums0 P := by
          rw [msum_append, msum_single,
            hzero q (List.mem_cons_self q T), add_zero]
        have hfilter : ((q :: T).filter (fun x => decide (leaf_idx ≤ x))) =
            T.filter (fun x => decide (leaf_idx ≤ x)) := by
          rw [List.filter_cons, if_neg (by simpa using hleaf)]
        rw [hfilter]
        rw [hz0] at ihms
        have : msum S' P = msum sums0 P +
            ((T.filter (fun x => decide (leaf_idx ≤ x))).map
              (fun x => bucketMassSum objects points (x - leaf_idx))).sum
              - mq := by
          rw [← ihms, hmsP]
          ring
        rw [this]
        ring

theorem sum_filter_key {α : Type} (cond : α → Bool) (key : α → Nat)
    (g : α → ℝ) (K : Nat) :
    ∀ l : List α, (∀ p ∈ l, cond p = true → key p < K) →
    (∑ z ∈ Finset.range K,
      ((l.filter (fun p => cond p && (key p == z))).map g).sum) =
      ((l.filter cond).map g).sum := by
  intro l
  induction l with
  | nil => simp
  | cons p T ih =>
    intro hK
    have ihT := ih (fun x hx => hK x (List.mem_cons_of_mem p hx))
    by_cases hc : cond p = true
    · have hkey : key p ∈ Finset.range K :=
        Finset.mem_range.mpr (hK p (List.mem_cons_self p T) hc)
      have hsum : ∀ z,
          (((p :: T).filter (fun x => cond x && (key x == z))).map g).sum =
          (if key p = z then g p else 0) +
            ((T.filter (fun x => cond x && (key x == z))).map g).sum := by
        intro z
        rw [List.filter_cons]
        by_cases hz : key p = z
        · rw [if_pos (by simp [hc, hz]), List.map_cons, List.sum_cons,
            if_pos hz]
        · rw [if_neg (by simp [hc, hz]), if_neg hz, zero_add]
      rw [Finset.sum_congr rfl (fun z _ => hsum z), Finset.sum_add_distrib,
        Finset.sum_ite_eq _ (key p) (fun _ => g p), if_pos hkey, ihT,
        List.filter_cons, if_pos hc, List.map_cons, List.sum_cons]
    · simp only [Bool.not_eq_true] at hc
      have hsum : ∀ z, ((p :: T).filter (fun x => cond x && (key x == z))) =
          T.filter (fun x => cond x && (key x == z)) := by
        intro z
        rw [List.filter_cons, if_neg (by simp [hc])]
      rw [Finset.sum_congr rfl (fun z _ => by rw [hsum z]), ihT,
        List.filter_cons, if_neg (by simp [hc])]

/-- Reindexing the leaf members of the active list by their bucket key: the
per-active-leaf bucket masses sum to the total over all buckets. -/
theorem leaf_sum_reindex (points2 : List (List Nat)) (objects : List Sphere)
    (asc : List Nat) (leaf K : Nat)
    (hsort : List.Pairwise (fun a b => a < b) asc)
    (hmem : ∀ z, (leaf + z ∈ asc) ↔ points2.getD z [] ≠ [])
    (hlen : points2.length = K) :
    ((asc.filter (fun q => decide (leaf ≤ q))).map
      (fun q => bucketMassSum objects points2 (q - leaf))).sum =
      ∑ z ∈ Finset.range K, bucketMassSum objects points2 z := by
  set L := (asc.filter (fun q => decide (leaf ≤ q))).map (fun q => q - leaf)
    with hL
  have hfle : ∀ q ∈ asc.filter (fun q => decide (leaf ≤ q)), leaf ≤ q := by
    intro q hq
    have := (List.mem_filter.mp hq).2
    simpa using this
  have hLpair : List.Pairwise (fun a b => a < b) L := by
    rw [hL, List.pairwise_map]
    refine List.Pairwise.imp_of_mem ?_ (hsort.filter _)
    intro a b ha hb hab
    have h1 := hfle a ha
    omega
  have hLnd : L.Nodup := hLpair.imp Nat.ne_of_lt
  have hLmem : ∀ z, z ∈ L ↔ points2.getD z [] ≠ [] := by
    intro z
    rw [hL, List.mem_map]
    constructor
    · rintro ⟨q, hq, rfl⟩
      have h1 := hfle q hq
      have h2 := (List.mem_filter.mp hq).1
      have h3 : leaf + (q - leaf) = q := by omega
      rw [← hmem, h3]
      exact h2
    · intro hz
      refine ⟨leaf + z, ?_, by omega⟩
      rw [List.mem_filter]
      exact ⟨(hmem z).mpr hz, by simp⟩
  have hmap : (asc.filter (fun q => decide (leaf ≤ q))).map
      (fun q => bucketMassSum objects points2 (q - leaf)) =
      L.map (bucketMassSum objects points2) := by
    rw [hL, List.map_map]
    rfl
  rw [hmap, ← List.sum_toFinset _ hLnd]
  have hset : L.toFinset =
      (Finset.range K).filter (fun z => points2.getD z [] ≠ []) := by
    apply Finset.ext
    intro z
    rw [List.mem_toFinset, hLmem, Finset.mem_filter, Finset.mem_range]
    constructor
    · intro h
      refine ⟨?_, h⟩
      have := getD_ne_d_lt points2 z [] h
      omega
    · intro h
      exact h.2
  rw [hset]
  have hsplit := Finset.sum_filter_add_sum_filter_not (Finset.range K)
    (fun z => points2.getD z [] ≠ []) (bucketMassSum objects points2)
  have hzero : ∑ z ∈ (Finset.range K).filter
      (fun z => ¬points2.getD z [] ≠ []), bucketMassSum objects points2 z =
      0 := by
    apply Finset.sum_eq_zero
    intro z hz
    have h1 := (Finset.mem_filter.mp hz).2
    have h2 : points2.getD z [] = [] := by
      by_contra hc
      exact h1 hc
    unfold bucketMassSum
    rw [h2]
    rfl
  linarith

/-- The total bucket mass of a built index, expressed over the enumerated
handle list: each in-bounds handle contributes the mass of
`objects[enumeration position]` (the id actually recorded). -/
theorem build_buckets_mass_total (pos : Vec2) (size : ℝ)
    (objects : List Sphere) (handles : List Nat) :
    (∑ z ∈ Finset.range (pointsLen objects), bucketMassSum objects
      (build_from_objects pos size objects handles).points z) =
      ((handles.enum.filter (fun p =>
          decide (in_bounds size (relPos objects pos p.2)))).map
        (fun p => (objects.getD p.1 default).mass)).sum := by
  have hz : ∀ z, bucketMassSum objects
      (build_from_objects pos size objects handles).points z =
      ((handles.enum.filter (fun p =>
          decide (in_bounds size (relPos objects pos p.2)) &&
            (cellKey objects pos (buildScale size objects) p.2 == z))).map
        ((fun id => (objects.getD id default).mass) ∘ Prod.fst)).sum := by
    intro z
    unfold bucketMassSum
    rw [build_points_getD, List.map_map]
  rw [Finset.sum_congr rfl (fun z _ => hz z)]
  rw [sum_filter_key _ _ _ _ handles.enum
    (fun p _ hbp => build_cellKey_lt pos size objects p.2 (by simpa using hbp))]
  rfl

/-- Root mass after Pass 1 for an arbitrary handle iterable: the sum over
in-bounds handles of the mass of `objects[i]` where `i` is the handle's
*enumeration position* (this is the id the placement loop records). -/
theorem pass1_root_mass_buckets (pos : Vec2) (size : ℝ)
    (objects : List Sphere) (handles : List Nat)
    (hm : ∀ s ∈ objects, 0 ≤ s.mass) :
    ((pass1 objects (build_from_objects pos size objects handles)).getD 0
        default).mass =
      ((handles.enum.filter (fun p =>
          decide (in_bounds size (relPos objects pos p.2)))).map
        (fun p => (objects.getD p.1 default).mass)).sum := by
  have hm' : ∀ id, 0 ≤ (objects.getD id default).mass := by
    intro id
    by_cases hid : id < objects.length
    · exact hm _ (getD_mem objects id default hid)
    · rw [getD_oob _ _ _ (by omega)]
      exact le_refl 0
  set t := build_from_objects pos size objects handles with ht
  set asc := (collateLoop (placeFold pos size objects handles).2
    (treeLen objects - 1)).2.reverse with hasc
  have hquads : t.quads = 0 :: asc := build_quads_def pos size objects handles
  have hinlen : t.inner.length = treeLen objects :=
    build_inner_length pos size objects handles
  have hptlen : t.points.length = pointsLen objects :=
    build_points_length pos size objects handles
  have hleaf : t.inner.length - t.points.length = leafIdx objects := by
    rw [hinlen, hptlen]
    rfl
  have hsorted0 : List.Pairwise (fun a b => a < b) (0 :: asc) := by
    rw [← hquads]
    exact build_quads_sorted pos size objects handles
  have hT1 : ∀ q ∈ asc, 1 ≤ q := by
    intro q hq
    have := (List.pairwise_cons.mp hsorted0).1 q hq
    omega
  have htllb : 1 ≤ treeLen objects := by
    rw [treeLen_eq]
    exact treeBase_pos _ (by omega)
  have hactive : ∀ q ∈ asc, isActive t q := by
    intro q hq
    have hmemq : q ∈ t.quads := by
      rw [hquads]
      exact List.mem_cons_of_mem 0 hq
    rcases (build_mem_quads pos size objects handles q).mp hmemq with h0 | h
    · have := hT1 q hq
      omega
    · exact h.2
  have hlenq : ∀ j ∈ [0] ++ asc, j <
      (List.replicate t.inner.length (default : Sphere)).length := by
    intro j hj
    rw [List.length_replicate]
    rcases List.mem_append.mp hj with h | h
    · have : j = 0 := by simpa using h
      omega
    · have := hactive j h
      rw [isActive] at this
      exact getD_ne_d_lt _ _ _ this
  have hclos : ∀ q ∈ asc, (q - 1) / 4 ∈ [0] ++ asc := by
    intro q hq
    have hq1 := hT1 q hq
    have hpar := build_parent_active pos size objects handles q hq1
      (hactive q hq)
    have : (q - 1) / 4 ∈ t.quads := by
      rw [build_mem_quads]
      rcases Nat.eq_zero_or_pos ((q - 1) / 4) with h0 | hp
      · exact Or.inl h0
      · exact Or.inr ⟨hp, hpar⟩
    rw [hquads] at this
    simpa using this
  have hrepl : ∀ j, (List.replicate t.inner.length
      (default : Sphere)).getD j default = default := by
    intro j
    rw [getD_replicate]
    by_cases hc : j < t.inner.length <;> simp [hc]
  obtain ⟨hnn, hms⟩ := pass1_inv objects t.points (leafIdx objects) hm'
    asc [0] (List.replicate t.inner.length default)
    (by
      have : ([0] ++ asc) = 0 :: asc := rfl
      rw [this]
      exact hsorted0)
    hT1 hclos hlenq
    (fun q _ => by rw [hrepl q]; rfl)
    (fun j => by rw [hrepl j]; exact le_refl 0)
  have hfoldr : pass1 objects t =
      pass1_step objects t.points (leafIdx objects)
        (asc.foldr (fun q s => pass1_step objects t.points
          (leafIdx objects) s q)
          (List.replicate t.inner.length default)) 0 := by
    rw [pass1, hleaf, hquads, List.foldl_reverse, List.foldr_cons]
  set S := asc.foldr (fun q s => pass1_step objects t.points
    (leafIdx objects) s q) (List.replicate t.inner.length default) with hS
  have hroot : ((pass1 objects t).getD 0 default).mass =
      ((S.getD 0 default)).mass := by
    rw [hfoldr]
    unfold pass1_step
    rw [if_neg (by
      have := leafIdx_pos objects
      omega)]
    rw [getD_set]
    have hps0 : parent_slot 0 ≠ 0 := by
      rw [parent_slot, if_pos rfl]
      norm_num
    rw [if_neg (fun hcc => hps0 hcc.1)]
  have hmsS : msum S [0] = (S.getD 0 default).mass := msum_single S 0
  have hms0 : msum (List.replicate t.inner.length (default : Sphere)) [0]
      = 0 := by
    rw [msum_single, hrepl 0]
    rfl
  rw [hroot, ← hmsS, hms, hms0, zero_add]
  have hiff : ∀ z, (leafIdx objects + z ∈ asc) ↔
      t.points.getD z [] ≠ [] := by
    intro z
    rw [← build_leaf_active_iff pos size objects handles z]
    constructor
    · intro h
      exact hactive _ h
    · intro h
      have hmemq : leafIdx objects + z ∈ t.quads := by
        rw [build_mem_quads]
        refine Or.inr ⟨?_, h⟩
        have := leafIdx_pos objects
        omega
      rw [hquads] at hmemq
      rcases List.mem_cons.mp hmemq with h0 | h2
      · have := leafIdx_pos objects
        omega
      · exact h2
  have hsortasc : List.Pairwise (fun a b => a < b) asc :=
    (List.pairwise_cons.mp hsorted0).2
  rw [leaf_sum_reindex t.points objects asc (leafIdx objects)
    (pointsLen objects) hsortasc hiff hptlen]
  exact build_buckets_mass_total pos size objects handles

theorem enum_range (n : Nat) :
    (List.range n).enum = (List.range n).map (fun i => (i, i)) := by
  apply List.ext_getElem?
  intro i
  rw [List.getElem?_enum, List.getElem?_map]
  by_cases h : i < n
  · rw [List.getElem?_range h]
    rfl
  · rw [List.getElem?_eq_none (by rw [List.length_range]; omega)]
    rfl

theorem sum_over_range_filter (objects : List Sphere) (P : Sphere → Bool)
    (f : Sphere → ℝ) :
    (((List.range objects.length).filter
      (fun i => P (objects.getD i default))).map
        (fun i => f (objects.getD i default))).sum =
      ((objects.filter P).map f).sum := by
  induction objects with
  | nil => rfl
  | cons a T ih =>
    rw [show (a :: T).length = T.length + 1 from rfl, List.range_succ_eq_map,
      List.filter_cons]
    by_cases hP : P a = true
    · rw [if_pos (show P ((a :: T).getD 0 default) = true from hP),
        List.map_cons, List.sum_cons, List.filter_map, List.map_map]
      have hcomp1 : ((fun i => P ((a :: T).getD i default)) ∘ Nat.succ) =
          fun i => P (T.getD i default) := rfl
      have hcomp2 : ((fun i => f ((a :: T).getD i default)) ∘ Nat.succ) =
          fun i => f (T.getD i default) := rfl
      rw [hcomp1, hcomp2, ih, List.filter_cons, if_pos hP, List.map_cons,
        List.sum_cons]
      rfl
    · rw [if_neg (show ¬P ((a :: T).getD 0 default) = true from hP),
        List.filter_map, List.map_map]
      have hcomp1 : ((fun i => P ((a :: T).getD i default)) ∘ Nat.succ) =
          fun i => P (T.getD i default) := rfl
      have hcomp2 : ((fun i => f ((a :: T).getD i default)) ∘ Nat.succ) =
          fun i => f (T.getD i default) := rfl
      rw [hcomp1, hcomp2, ih, List.filter_cons, if_neg hP]

/-- C2 (amended): for the identity handle range `0..N-1` — the handle set
the engine's caller supplies — and non-negative masses, the root node's
aggregate mass after Pass 1 equals the sum of the masses of the in-bounds
bodies.  (For a general handle iterable the root instead accumulates the
masses of `objects[i]` over the enumeration positions `i` of the in-bounds
handles, because the placement loop records positions, not handles; see the
counterexample.) -/
theorem pass1_root_mass_conservation (pos : Vec2) (size : ℝ)
    (objects : List Sphere) (hm : ∀ s ∈ objects, 0 ≤ s.mass) :
    ((pass1 objects (build_from_objects pos size objects
        (List.range objects.length))).getD 0 default).mass =
      ((objects.filter (fun s => decide (in_bounds size (s.pos - pos)))).map
        Sphere.mass).sum := by
  rw [pass1_root_mass_buckets pos size objects _ hm, enum_range,
    List.filter_map, List.map_map]
  have hc1 : ((fun p : Nat × Nat =>
      decide (in_bounds size (relPos objects pos p.2))) ∘ (fun i => (i, i)))
      = fun i => decide (in_bounds size (relPos objects pos i)) := rfl
  have hc2 : ((fun p : Nat × Nat => (objects.getD p.1 default).mass) ∘
      (fun i => (i, i))) = fun i => (objects.getD i default).mass := rfl
  rw [hc1, hc2]
  exact sum_over_range_filter objects
    (fun s => decide (in_bounds size (s.pos - pos))) Sphere.mass

/-- C2 witness: mass conservation at a concrete two-body build (masses 2
and 3, both in bounds, identity handles). -/
theorem pass1_root_mass_conservation_witness :
    ((pass1 [⟨⟨0, 0⟩, 2, 1⟩, ⟨⟨1, 1⟩, 3, 1⟩]
        (build_from_objects ⟨0, 0⟩ 2 [⟨⟨0, 0⟩, 2, 1⟩, ⟨⟨1, 1⟩, 3, 1⟩]
          (List.range
            ([⟨⟨0, 0⟩, 2, 1⟩, ⟨⟨1, 1⟩, 3, 1⟩] : List Sphere).length))).getD 0
        default).mass =
      (([⟨⟨0, 0⟩, 2, 1⟩, ⟨⟨1, 1⟩, 3, 1⟩].filter
          (fun s => decide (in_bounds 2 (s.pos - ⟨0, 0⟩)))).map
        Sphere.mass).sum :=
  pass1_root_mass_conservation ⟨0, 0⟩ 2 [⟨⟨0, 0⟩, 2, 1⟩, ⟨⟨1, 1⟩, 3, 1⟩]
    (by
      intro s hs
      rcases List.mem_cons.mp hs with rfl | hs2
      · norm_num
      · rcases List.mem_cons.mp hs2 with rfl | hs3
        · norm_num
        · cases hs3)

/-- C2 counterexample: with bodies of masses 5 (at the origin) and 7 (at
`(1,1)`) and the non-identity handle set `[1]`, the only supplied body is
the in-bounds body of mass 7, yet the root aggregate mass after Pass 1 is
5 — the recorded id is the enumeration position 0, and Pass 1 sums
`objects[0]`. -/
theorem pass1_root_mass_not_placed_mass :
    ((pass1 [⟨⟨0, 0⟩, 5, 1⟩, ⟨⟨1, 1⟩, 7, 1⟩]
        (build_from_objects ⟨0, 0⟩ 2 [⟨⟨0, 0⟩, 5, 1⟩, ⟨⟨1, 1⟩, 7, 1⟩]
          [1])).getD 0 default).mass = 5 ∧
    in_bounds 2 (relPos [⟨⟨0, 0⟩, 5, 1⟩, ⟨⟨1, 1⟩, 7, 1⟩] ⟨0, 0⟩ 1) ∧
    (([⟨⟨0, 0⟩, 5, 1⟩, ⟨⟨1, 1⟩, 7, 1⟩] : List Sphere).getD 1 default).mass
      = 7 ∧
    (5 : ℝ) ≠ 7 := by
  have hrel : relPos [⟨⟨0, 0⟩, 5, 1⟩, ⟨⟨1, 1⟩, 7, 1⟩] ⟨0, 0⟩ 1 = ⟨1, 1⟩ := by
    unfold relPos
    show (⟨⟨1, 1⟩, 7, 1⟩ : Sphere).pos - ⟨0, 0⟩ = ⟨1, 1⟩
    rw [Vec2.ext_iff_xy]
    constructor <;> · show (1 : ℝ) - 0 = 1; norm_num
  have hb : in_bounds 2 (relPos [⟨⟨0, 0⟩, 5, 1⟩, ⟨⟨1, 1⟩, 7, 1⟩] ⟨0, 0⟩ 1) := by
    rw [hrel]
    unfold in_bounds
    constructor
    · show (0 : ℝ) ≤ min 1 1
      norm_num
    · show max (1 : ℝ) 1 < 2
      norm_num
  refine ⟨?_, hb, rfl, by norm_num⟩
  rw [pass1_root_mass_buckets ⟨0, 0⟩ 2 [⟨⟨0, 0⟩, 5, 1⟩, ⟨⟨1, 1⟩, 7, 1⟩] [1]
    (by
      intro s hs
      rcases List.mem_cons.mp hs with rfl | hs2
      · norm_num
      · rcases List.mem_cons.mp hs2 with rfl | hs3
        · norm_num
        · cases hs3)]
  have he : ([1] : List Nat).enum = [(0, 1)] := rfl
  rw [he, List.filter_cons, if_pos (by
    show decide (in_bounds 2 (relPos [⟨⟨0, 0⟩, 5, 1⟩, ⟨⟨1, 1⟩, 7, 1⟩]
      ⟨0, 0⟩ (0, 1).2)) = true
    exact decide_eq_true hb)]
  show (5 : ℝ) + List.sum [] = 5
  norm_num

/-! ## Pass 2: near-list structure -/

/-- The grid coordinate recorded for a node (the `unwrap`ped value; active
nodes always hold one). -/
def coordOf (t : Quadtree) (x : Nat) : Nat × Nat :=
  (t.inner.getD x none).getD (0, 0)

theorem near_test_iff (a b : Nat × Nat) :
    near_test a b ↔
      a.1 ≤ b.1 + 1 ∧ b.1 ≤ a.1 + 1 ∧ a.2 ≤ b.2 + 1 ∧ b.2 ≤ a.2 + 1 := by
  unfold near_test
  rw [Nat.max_le]
  omega

theorem near_test_symm (a b : Nat × Nat) (h : near_test a b) :
    near_test b a := by
  rw [near_test_iff] at h ⊢
  omega

theorem near_test_self (a : Nat × Nat) : near_test a a := by
  rw [near_test_iff]
  omega

theorem near_test_half (a b : Nat × Nat) (h : near_test a b) :
    near_test (a.1 / 2, a.2 / 2) (b.1 / 2, b.2 / 2) := by
  rw [near_test_iff] at h ⊢
  dsimp only
  omega

theorem mem_children_iff (t : Quadtree) (s r : Nat) :
    r ∈ children t s ↔
      s * 4 + 1 ≤ r ∧ r < s * 4 + 5 ∧ (t.inner.getD r none).isSome := by
  unfold children
  rw [List.mem_filter, List.mem_range'_1]
  constructor
  · intro ⟨⟨h1, h2⟩, h3⟩
    exact ⟨h1, by omega, h3⟩
  · intro ⟨h1, h2, h3⟩
    exact ⟨⟨h1, by omega⟩, h3⟩

/-- In a built index, the coordinate of an active node's parent is the
node's coordinate halved componentwise. -/
theorem build_coord_parent (pos : Vec2) (size : ℝ) (objects : List Sphere)
    (handles : List Nat) (q : Nat) (hq : 1 ≤ q) (c c' : Nat × Nat)
    (hc : (build_from_objects pos size objects handles).inner.getD q none =
      some c)
    (hc' : (build_from_objects pos size objects handles).inner.getD
      ((q - 1) / 4) none = some c') :
    c' = (c.1 / 2, c.2 / 2) := by
  obtain ⟨hb1, hb2, hb3⟩ := build_good pos size objects handles q c hc
  obtain ⟨hb1', hb2', hb3'⟩ :=
    build_good pos size objects handles ((q - 1) / 4) c' hc'
  have hl : 1 ≤ lev q := lev_pos q hq
  obtain ⟨m, hm⟩ : ∃ m, lev q = m + 1 := ⟨lev q - 1, by omega⟩
  rw [hm] at hb1 hb2 hb3
  have hz : zorderIndex c.1 c.2 < 4 ^ (m + 1) := zorderIndex_lt _ _ _ hb1 hb2
  have htb : treeBase (m + 1) = 4 * treeBase m + 1 := rfl
  have hpq : (q - 1) / 4 = treeBase m + zorderIndex c.1 c.2 / 4 := by omega
  have hlevp : lev ((q - 1) / 4) = m := by
    have := lev_parent q hq
    omega
  rw [hlevp] at hb3'
  have heq : zorderIndex c'.1 c'.2 = zorderIndex c.1 c.2 / 4 := by omega
  rw [zorderIndex_div_four] at heq
  have := zorderIndex_inj _ _ _ _ heq
  obtain ⟨h1, h2⟩ := this
  cases c'
  simp only [Prod.mk.injEq]
  exact ⟨h1, h2⟩

/-- The candidate fold of one Pass-2 iteration appends exactly the
candidates passing the adjacency test to the current node's near-list and
leaves every other near-list unchanged. -/
theorem pass2_cand_fold_near (sums : List Sphere) (q : Nat)
    (coords : Nat × Nat) (t : Quadtree) (cand : List Nat) :
    ∀ st : List (List Nat) × List Vec2, q < st.1.length →
    ((cand.foldl (pass2_cand_step sums q coords t) st).1.getD q [] =
      st.1.getD q [] ++ cand.filter (fun r =>
        decide (near_test ((t.inner.getD r none).getD (0, 0)) coords))) ∧
    (∀ y, y ≠ q →
      (cand.foldl (pass2_cand_step sums q coords t) st).1.getD y [] =
        st.1.getD y []) ∧
    (cand.foldl (pass2_cand_step sums q coords t) st).1.length =
      st.1.length := by
  induction cand with
  | nil =>
    intro st _
    refine ⟨by simp, fun y _ => rfl, rfl⟩
  | cons r T ih =>
    intro st hq
    rw [List.foldl_cons]
    by_cases hn : near_test ((t.inner.getD r none).getD (0, 0)) coords
    · have hstep : pass2_cand_step sums q coords t st r =
          (st.1.set q (st.1.getD q [] ++ [r]), st.2) := by
        unfold pass2_cand_step
        rw [if_pos hn]
      rw [hstep]
      obtain ⟨ih1, ih2, ih3⟩ := ih (st.1.set q (st.1.getD q [] ++ [r]), st.2)
        (by rw [List.length_set]; exact hq)
      refine ⟨?_, ?_, ?_⟩
      · rw [ih1]
        show (st.1.set q (st.1.getD q [] ++ [r])).getD q [] ++ _ = _
        rw [getD_set_self _ _ _ _ hq, List.filter_cons,
          if_pos (decide_eq_true hn), List.append_assoc]
        rfl
      · intro y hy
        rw [ih2 y hy]
        show (st.1.set q (st.1.getD q [] ++ [r])).getD y [] = _
        exact getD_set_ne _ _ _ _ _ (fun h => hy h.symm)
      · rw [ih3, List.length_set]
    · have hstep : pass2_cand_step sums q coords t st r =
          (st.1, st.2.set q (st.2.getD q 0 +
            (sums.getD r default).effect_on (sums.getD q default))) := by
        unfold pass2_cand_step
        rw [if_neg hn]
      rw [hstep]
      obtain ⟨ih1, ih2, ih3⟩ := ih (st.1, st.2.set q (st.2.getD q 0 +
        (sums.getD r default).effect_on (sums.getD q default))) hq
      refine ⟨?_, ih2, ih3⟩
      rw [ih1, List.filter_cons, if_neg (by simpa using hn)]

/-- The invariant of Pass 2's forward sweep, generic over any tree whose
active list is sorted and parent-closed and whose coordinates are
layout-consistent: after processing a prefix of `quads[1..]`, the near-list
of every processed node (and the seeded root) holds exactly the active
same-level nodes within Chebyshev distance 1, and every other near-list is
still empty. -/
theorem pass2_inv (t : Quadtree) (sums : List Sphere)
    (hmem : ∀ q, q ∈ t.quads ↔
      q = 0 ∨ (1 ≤ q ∧ t.inner.getD q none ≠ none))
    (hpar : ∀ q, 1 ≤ q → t.inner.getD q none ≠ none →
      t.inner.getD ((q - 1) / 4) none ≠ none)
    (hcoord : ∀ q, 1 ≤ q → ∀ c c', t.inner.getD q none = some c →
      t.inner.getD ((q - 1) / 4) none = some c' →
      c' = (c.1 / 2, c.2 / 2)) :
    ∀ (suf pre : List Nat) (st : List (List Nat) × List Vec2),
    t.quads = 0 :: (pre ++ suf) →
    List.Pairwise (fun a b => a < b) t.quads →
    st.1.length = t.inner.length →
    (∀ x ∈ (0 :: pre), ∀ r, r ∈ st.1.getD x [] ↔
      (r ∈ t.quads ∧ lev r = lev x ∧
        near_test (coordOf t r) (coordOf t x))) →
    (∀ y, y ∉ (0 :: pre) → st.1.getD y [] = []) →
    (∀ x ∈ (0 :: (pre ++ suf)), ∀ r,
      r ∈ (suf.foldl (pass2_step t sums) st).1.getD x [] ↔
      (r ∈ t.quads ∧ lev r = lev x ∧
        near_test (coordOf t r) (coordOf t x))) ∧
    (∀ y, y ∉ (0 :: (pre ++ suf)) →
      (suf.foldl (pass2_step t sums) st).1.getD y [] = []) ∧
    (suf.foldl (pass2_step t sums) st).1.length = st.1.length := by
  intro suf
  induction suf with
  | nil =>
    intro pre st hq hsort hlen hch hoff
    rw [List.foldl_nil]
    refine ⟨?_, ?_, rfl⟩
    · intro x hx
      rw [List.append_nil] at hx
      exact hch x hx
    · intro y hy
      rw [List.append_nil] at hy
      exact hoff y hy
  | cons q suf2 ih =>
    intro pre st hq hsort hlen hch hoff
    rw [List.foldl_cons]
    have hsort' : List.Pairwise (fun a b => a < b)
        (0 :: (pre ++ q :: suf2)) := hq ▸ hsort
    obtain ⟨hhead, htail⟩ := List.pairwise_cons.mp hsort'
    obtain ⟨hppre, hpqs, hcross⟩ := List.pairwise_append.mp htail
    have hq1 : 1 ≤ q := by
      have := hhead q (List.mem_append_right pre (List.mem_cons_self q suf2))
      omega
    have hqmem : q ∈ t.quads := by
      rw [hq]
      exact List.mem_cons_of_mem 0
        (List.mem_append_right pre (List.mem_cons_self q suf2))
    have hqact : t.inner.getD q none ≠ none := by
      rcases (hmem q).mp hqmem with h0 | h
      · omega
      · exact h.2
    have hqlen : q < t.inner.length := getD_ne_d_lt _ _ _ hqact
    have hpltq : (q - 1) / 4 < q := by omega
    have hpact : t.inner.getD ((q - 1) / 4) none ≠ none := hpar q hq1 hqact
    have hpquads : (q - 1) / 4 ∈ t.quads := by
      rw [hmem]
      rcases Nat.eq_zero_or_pos ((q - 1) / 4) with h0 | hp
      · exact Or.inl h0
      · exact Or.inr ⟨hp, hpact⟩
    have hpmem : (q - 1) / 4 ∈ (0 :: pre) := by
      rw [hq] at hpquads
      rcases List.mem_cons.mp hpquads with h0 | h2
      · rw [h0]
        exact List.mem_cons_self 0 pre
      · rcases List.mem_append.mp h2 with h3 | h4
        · exact List.mem_cons_of_mem 0 h3
        · exfalso
          rcases List.mem_cons.mp h4 with h5 | h6
          · omega
          · have := (List.pairwise_cons.mp hpqs).1 _ h6
            omega
    have hqnotpre : q ∉ (0 :: pre) := by
      intro hc
      rcases List.mem_cons.mp hc with h0 | h2
      · omega
      · have := hcross q h2 q (List.mem_cons_self q suf2)
        omega
    have hstep : pass2_step t sums st q =
        ((st.1.getD (parent_slot q) []).flatMap (children t)).foldl
          (pass2_cand_step sums q ((t.inner.getD q none).getD (0, 0)) t)
          st := rfl
    rw [hstep, parent_slot_pos q hq1]
    set cand := (st.1.getD ((q - 1) / 4) []).flatMap (children t) with hcand
    obtain ⟨hc1, hc2, hc3⟩ := pass2_cand_fold_near sums q
      ((t.inner.getD q none).getD (0, 0)) t cand st (by omega)
    set st' := cand.foldl
      (pass2_cand_step sums q ((t.inner.getD q none).getD (0, 0)) t) st
      with hst'
    have hq_old : st.1.getD q [] = [] := hoff q hqnotpre
    have hqchar : ∀ r, r ∈ st'.1.getD q [] ↔
        (r ∈ t.quads ∧ lev r = lev q ∧
          near_test (coordOf t r) (coordOf t q)) := by
      intro r
      rw [hc1, hq_old, List.nil_append, List.mem_filter]
      constructor
      · rintro ⟨hrc, hrn⟩
        rw [hcand, List.mem_flatMap] at hrc
        obtain ⟨s, hs, hrs⟩ := hrc
        rw [mem_children_iff] at hrs
        obtain ⟨hr1, hr2, hr3⟩ := hrs
        obtain ⟨hsq, hslev, _⟩ := (hch _ hpmem s).mp hs
        have hract : t.inner.getD r none ≠ none := by
          intro hcc
          rw [hcc] at hr3
          exact absurd hr3 (by simp)
        have hr0 : 1 ≤ r := by omega
        have hrq : r ∈ t.quads := (hmem r).mpr (Or.inr ⟨hr0, hract⟩)
        have hrlev : lev r = lev q := by
          have hj := lev_child s (r - 4 * s) (by omega) (by omega)
          rw [show 4 * s + (r - 4 * s) = r by omega] at hj
          have hlq := lev_parent q hq1
          omega
        exact ⟨hrq, hrlev, of_decide_eq_true hrn⟩
      · rintro ⟨hrq, hrlev, hrnear⟩
        have hl1 : 1 ≤ lev q := lev_pos q hq1
        have hr1 : 1 ≤ r := by
          by_contra hc
          have hr0 : r = 0 := by omega
          rw [hr0, lev_zero] at hrlev
          omega
        have hract : t.inner.getD r none ≠ none := by
          rcases (hmem r).mp hrq with h0 | h
          · omega
          · exact h.2
        have hsact := hpar r hr1 hract
        have hs1q : (r - 1) / 4 ∈ t.quads := by
          rw [hmem]
          rcases Nat.eq_zero_or_pos ((r - 1) / 4) with h0 | hp
          · exact Or.inl h0
          · exact Or.inr ⟨hp, hsact⟩
        have hslev : lev ((r - 1) / 4) = lev ((q - 1) / 4) := by
          have e1 := lev_parent r hr1
          have e2 := lev_parent q hq1
          omega
        cases hcr : t.inner.getD r none with
        | none => exact absurd hcr hract
        | some cr =>
        cases hcq : t.inner.getD q none with
        | none => exact absurd hcq hqact
        | some cq =>
        cases hcs : t.inner.getD ((r - 1) / 4) none with
        | none => exact absurd hcs hsact
        | some cs =>
        cases hcp : t.inner.getD ((q - 1) / 4) none with
        | none => exact absurd hcp hpact
        | some cp =>
        have hcs2 : cs = (cr.1 / 2, cr.2 / 2) := hcoord r hr1 cr cs hcr hcs
        have hcp2 : cp = (cq.1 / 2, cq.2 / 2) := hcoord q hq1 cq cp hcq hcp
        have hco_r : coordOf t r = cr := by
          rw [coordOf, hcr]
          rfl
        have hco_q : coordOf t q = cq := by
          rw [coordOf, hcq]
          rfl
        have hco_s : coordOf t ((r - 1) / 4) = cs := by
          rw [coordOf, hcs]
          rfl
        have hco_p : coordOf t ((q - 1) / 4) = cp := by
          rw [coordOf, hcp]
          rfl
        have hrnear2 : near_test cr cq := by
          rw [hco_r, hco_q] at hrnear
          exact hrnear
        have hnear_sp : near_test (coordOf t ((r - 1) / 4))
            (coordOf t ((q - 1) / 4)) := by
          rw [hco_s, hco_p, hcs2, hcp2]
          exact near_test_half cr cq hrnear2
        have hsin : (r - 1) / 4 ∈ st.1.getD ((q - 1) / 4) [] :=
          (hch _ hpmem ((r - 1) / 4)).mpr ⟨hs1q, hslev, hnear_sp⟩
        constructor
        · rw [hcand, List.mem_flatMap]
          refine ⟨(r - 1) / 4, hsin, ?_⟩
          rw [mem_children_iff]
          refine ⟨by omega, by omega, ?_⟩
          rw [hcr]
          simp
        · apply decide_eq_true
          simpa using hrnear2
    have hassoc : pre ++ q :: suf2 = (pre ++ [q]) ++ suf2 := by
      rw [List.append_assoc]
      rfl
    obtain ⟨ih1, ih2, ih3⟩ := ih (pre ++ [q]) st'
      (by rw [hq, hassoc])
      hsort
      (by rw [hc3]; exact hlen)
      (by
        intro x hx r
        rcases List.mem_cons.mp hx with h0 | h2
        · subst h0
          rw [hc2 0 (by omega)]
          exact hch 0 (List.mem_cons_self 0 pre) r
        · rcases List.mem_append.mp h2 with h3 | h4
          · have hxq : x ≠ q := by
              intro hcc
              exact hqnotpre (hcc ▸ List.mem_cons_of_mem 0 h3)
            rw [hc2 x hxq]
            exact hch x (List.mem_cons_of_mem 0 h3) r
          · have hxq : x = q := by simpa using h4
            subst hxq
            exact hqchar r)
      (by
        intro y hy
        have hyq : y ≠ q := by
          intro hcc
          apply hy
          rw [hcc]
          exact List.mem_cons_of_mem 0
            (List.mem_append_right pre (List.mem_cons_self q []))
        rw [hc2 y hyq]
        apply hoff
        intro hcc
        rcases List.mem_cons.mp hcc with h0 | h2
        · apply hy
          rw [h0]
          exact List.mem_cons_self 0 _
        · exact hy (List.mem_cons_of_mem 0 (List.mem_append_left _ h2)))
    refine ⟨?_, ?_, ?_⟩
    · intro x hx r
      have hx2 : x ∈ 0 :: ((pre ++ [q]) ++ suf2) := by
        rw [hassoc] at hx
        exact hx
      exact ih1 x hx2 r
    · intro y hy
      apply ih2 y
      rw [hassoc] at hy
      exact hy
    · rw [ih3, hc3]

/-- After Pass 2 on a built index, a node's near-list holds exactly the
active same-level nodes within Chebyshev distance 1 of it. -/
theorem pass2_charac (pos : Vec2) (size : ℝ) (objects : List Sphere)
    (handles : List Nat) (sums : List Sphere) (x : Nat)
    (hx : x ∈ (build_from_objects pos size objects handles).quads) (r : Nat) :
    r ∈ (pass2 (build_from_objects pos size objects handles) sums).1.getD
        x [] ↔
      (r ∈ (build_from_objects pos size objects handles).quads ∧
        lev r = lev x ∧
        near_test (coordOf (build_from_objects pos size objects handles) r)
          (coordOf (build_from_objects pos size objects handles) x)) := by
  set t := build_from_objects pos size objects handles with ht
  have htllb : 1 ≤ t.inner.length := by
    rw [ht, build_inner_length, treeLen_eq]
    exact treeBase_pos _ (by omega)
  have hst0 : ((List.replicate t.inner.length ([] : List Nat)).set 0
      [0]).getD 0 [] = [0] :=
    getD_set_self _ _ _ _ (by rw [List.length_replicate]; omega)
  have h0quads : 0 ∈ t.quads :=
    (build_mem_quads pos size objects handles 0).mpr (Or.inl rfl)
  obtain ⟨hfin, _, _⟩ := pass2_inv t sums
    (fun q => build_mem_quads pos size objects handles q)
    (fun q h1 hact => build_parent_active pos size objects handles q h1 hact)
    (fun q h1 c c' hc hc' =>
      build_coord_parent pos size objects handles q h1 c c' hc hc')
    (t.quads.drop 1) []
    ((List.replicate t.inner.length ([] : List Nat)).set 0 [0],
      List.replicate t.inner.length (0 : Vec2))
    (by
      rw [List.nil_append]
      rw [ht, build_quads_def]
      rfl)
    (build_quads_sorted pos size objects handles)
    (by rw [List.length_set, List.length_replicate])
    (by
      intro x2 hx2 r2
      have hx0 : x2 = 0 := by simpa using hx2
      subst hx0
      rw [hst0]
      constructor
      · intro hr2
        have : r2 = 0 := by simpa using hr2
        subst this
        exact ⟨h0quads, rfl, near_test_self _⟩
      · rintro ⟨_, hlev, _⟩
        rw [lev_zero] at hlev
        have : r2 = 0 := (lev_zero_iff r2).mp hlev
        subst this
        simp)
    (by
      intro y hy
      have hy0 : y ≠ 0 := by
        intro hcc
        exact hy (by rw [hcc]; exact List.mem_cons_self 0 [])
      rw [getD_set_ne _ _ _ _ _ (fun h => hy0 h.symm), getD_replicate]
      by_cases hc : y < t.inner.length <;> simp [hc])
  have hquads_eq : t.quads = 0 :: ([] ++ t.quads.drop 1) := by
    rw [List.nil_append, ht, build_quads_def]
    rfl
  have hx2 : x ∈ 0 :: ([] ++ t.quads.drop 1) := by
    rw [← hquads_eq]
    exact hx
  have := hfin x hx2 r
  rw [pass2]
  exact this

/-- C8: leaf-level near symmetry — for every two leaf nodes `A`, `B` of the
active list of a built index, if `A` is in `B`'s near-list after Pass 2,
then `B` is in `A`'s near-list (the 3×3 Chebyshev adjacency is symmetric;
the proof goes through the exact characterization of the near-lists). -/
theorem pass2_near_symmetric (pos : Vec2) (size : ℝ) (objects : List Sphere)
    (handles : List Nat) (A B : Nat)
    (hA : A ∈ (build_from_objects pos size objects handles).quads)
    (hB : B ∈ (build_from_objects pos size objects handles).quads)
    (hAleaf : leafIdx objects ≤ A) (hBleaf : leafIdx objects ≤ B)
    (hmem : A ∈ (pass2 (build_from_objects pos size objects handles)
      (pass1 objects (build_from_objects pos size objects
        handles))).1.getD B []) :
    B ∈ (pass2 (build_from_objects pos size objects handles)
      (pass1 objects (build_from_objects pos size objects
        handles))).1.getD A [] := by
  obtain ⟨hAq, hlev, hnear⟩ :=
    (pass2_charac pos size objects handles _ B hB A).mp hmem
  exact (pass2_charac pos size objects handles _ A hA B).mpr
    ⟨hB, hlev.symm, near_test_symm _ _ hnear⟩

/-- C8 witness: two bodies at `(0,0)` and `(1,1)` with `size = 2` occupy the
diagonal leaf cells `1` and `4` (grid coordinates `(0,0)` and `(1,1)`,
Chebyshev distance 1); leaf `1` is in leaf `4`'s near-list, and symmetry
puts leaf `4` in leaf `1`'s near-list. -/
theorem pass2_near_symmetric_witness :
    4 ∈ (pass2 (build_from_objects ⟨0, 0⟩ 2
        [⟨⟨0, 0⟩, 1, 1⟩, ⟨⟨1, 1⟩, 1, 1⟩] [0, 1])
      (pass1 [⟨⟨0, 0⟩, 1, 1⟩, ⟨⟨1, 1⟩, 1, 1⟩]
        (build_from_objects ⟨0, 0⟩ 2
          [⟨⟨0, 0⟩, 1, 1⟩, ⟨⟨1, 1⟩, 1, 1⟩] [0, 1]))).1.getD 1 [] := by
  have hd : buildDepth [⟨⟨0, 0⟩, 1, 1⟩, ⟨⟨1, 1⟩, 1, 1⟩] = 1 :=
    buildDepth_two _ _
  have hpl : pointsLen [⟨⟨0, 0⟩, 1, 1⟩, ⟨⟨1, 1⟩, 1, 1⟩] = 4 := by
    rw [pointsLen, hd]
    rfl
  have htl : treeLen [⟨⟨0, 0⟩, 1, 1⟩, ⟨⟨1, 1⟩, 1, 1⟩] = 5 := by
    rw [treeLen, hd]
    rfl
  have hli : leafIdx [⟨⟨0, 0⟩, 1, 1⟩, ⟨⟨1, 1⟩, 1, 1⟩] = 1 := by
    rw [leafIdx, htl, hpl]
  have h0rel : relPos [⟨⟨0, 0⟩, 1, 1⟩, ⟨⟨1, 1⟩, 1, 1⟩] ⟨0, 0⟩ 0 = ⟨0, 0⟩ := by
    unfold relPos
    show (⟨⟨0, 0⟩, 1, 1⟩ : Sphere).pos - ⟨0, 0⟩ = ⟨0, 0⟩
    rw [Vec2.ext_iff_xy]
    constructor <;> · show (0 : ℝ) - 0 = 0; norm_num
  have h1rel : relPos [⟨⟨0, 0⟩, 1, 1⟩, ⟨⟨1, 1⟩, 1, 1⟩] ⟨0, 0⟩ 1 = ⟨1, 1⟩ := by
    unfold relPos
    show (⟨⟨1, 1⟩, 1, 1⟩ : Sphere).pos - ⟨0, 0⟩ = ⟨1, 1⟩
    rw [Vec2.ext_iff_xy]
    constructor <;> · show (1 : ℝ) - 0 = 1; norm_num
  have h0b : in_bounds 2 (relPos [⟨⟨0, 0⟩, 1, 1⟩, ⟨⟨1, 1⟩, 1, 1⟩]
      ⟨0, 0⟩ 0) := by
    rw [h0rel]
    unfold in_bounds
    constructor
    · show (0 : ℝ) ≤ min 0 0
      norm_num
    · show max (0 : ℝ) 0 < 2
      norm_num
  have h1b : in_bounds 2 (relPos [⟨⟨0, 0⟩, 1, 1⟩, ⟨⟨1, 1⟩, 1, 1⟩]
      ⟨0, 0⟩ 1) := by
    rw [h1rel]
    unfold in_bounds
    constructor
    · show (0 : ℝ) ≤ min 1 1
      norm_num
    · show max (1 : ℝ) 1 < 2
      norm_num
  have hsc : buildScale 2 [⟨⟨0, 0⟩, 1, 1⟩, ⟨⟨1, 1⟩, 1, 1⟩] = 1 := by
    rw [buildScale, hd]
    norm_num
  have h0cc : cellCoords [⟨⟨0, 0⟩, 1, 1⟩, ⟨⟨1, 1⟩, 1, 1⟩] ⟨0, 0⟩
      (buildScale 2 [⟨⟨0, 0⟩, 1, 1⟩, ⟨⟨1, 1⟩, 1, 1⟩]) 0 = (0, 0) := by
    unfold cellCoords
    rw [h0rel, hsc]
    show ((⌊(0 : ℝ) * 1⌋).toNat, (⌊(0 : ℝ) * 1⌋).toNat) = (0, 0)
    norm_num
  have h1cc : cellCoords [⟨⟨0, 0⟩, 1, 1⟩, ⟨⟨1, 1⟩, 1, 1⟩] ⟨0, 0⟩
      (buildScale 2 [⟨⟨0, 0⟩, 1, 1⟩, ⟨⟨1, 1⟩, 1, 1⟩]) 1 = (1, 1) := by
    unfold cellCoords
    rw [h1rel, hsc]
    show ((⌊(1 : ℝ) * 1⌋).toNat, (⌊(1 : ℝ) * 1⌋).toNat) = (1, 1)
    norm_num
  have h0ck : cellKey [⟨⟨0, 0⟩, 1, 1⟩, ⟨⟨1, 1⟩, 1, 1⟩] ⟨0, 0⟩
      (buildScale 2 [⟨⟨0, 0⟩, 1, 1⟩, ⟨⟨1, 1⟩, 1, 1⟩]) 0 = 0 := by
    unfold cellKey
    rw [h0cc]
    exact zorderIndex_zero
  have h1ck : cellKey [⟨⟨0, 0⟩, 1, 1⟩, ⟨⟨1, 1⟩, 1, 1⟩] ⟨0, 0⟩
      (buildScale 2 [⟨⟨0, 0⟩, 1, 1⟩, ⟨⟨1, 1⟩, 1, 1⟩]) 1 = 3 := by
    unfold cellKey
    rw [h1cc]
    show zorderIndex 1 1 = 3
    rw [zorderIndex_eq 1 1 (by omega)]
    norm_num [zorderIndex_zero]
  have hstep0 : place_step [⟨⟨0, 0⟩, 1, 1⟩, ⟨⟨1, 1⟩, 1, 1⟩] ⟨0, 0⟩ 2
      (buildScale 2 [⟨⟨0, 0⟩, 1, 1⟩, ⟨⟨1, 1⟩, 1, 1⟩])
      (leafIdx [⟨⟨0, 0⟩, 1, 1⟩, ⟨⟨1, 1⟩, 1, 1⟩])
      (List.replicate (pointsLen [⟨⟨0, 0⟩, 1, 1⟩, ⟨⟨1, 1⟩, 1, 1⟩]) [],
        List.replicate (treeLen [⟨⟨0, 0⟩, 1, 1⟩, ⟨⟨1, 1⟩, 1, 1⟩]) none)
      (0, 0) =
      ([[0], [], [], []], [none, some (0, 0), none, none, none]) := by
    rw [hpl, htl, hli]
    unfold place_step
    dsimp only
    rw [if_pos h0b, h0ck, h0cc]
    rfl
  have hstep1 : place_step [⟨⟨0, 0⟩, 1, 1⟩, ⟨⟨1, 1⟩, 1, 1⟩] ⟨0, 0⟩ 2
      (buildScale 2 [⟨⟨0, 0⟩, 1, 1⟩, ⟨⟨1, 1⟩, 1, 1⟩])
      (leafIdx [⟨⟨0, 0⟩, 1, 1⟩, ⟨⟨1, 1⟩, 1, 1⟩])
      ([[0], [], [], []], [none, some (0, 0), none, none, none]) (1, 1) =
      ([[0], [], [], [1]],
        [none, some (0, 0), none, none, some (1, 1)]) := by
    rw [hli]
    unfold place_step
    dsimp only
    rw [if_pos h1b, h1ck, h1cc]
    rfl
  have hpf : placeFold ⟨0, 0⟩ 2 [⟨⟨0, 0⟩, 1, 1⟩, ⟨⟨1, 1⟩, 1, 1⟩] [0, 1] =
      ([[0], [], [], [1]],
        [none, some (0, 0), none, none, some (1, 1)]) := by
    rw [placeFold,
      show ([0, 1] : List Nat).enum = [(0, 0), (1, 1)] from rfl,
      List.foldl_cons, hstep0, List.foldl_cons, hstep1, List.foldl_nil]
  have hti : (build_from_objects ⟨0, 0⟩ 2
      [⟨⟨0, 0⟩, 1, 1⟩, ⟨⟨1, 1⟩, 1, 1⟩] [0, 1]).inner =
      [some (0, 0), some (0, 0), none, none, some (1, 1)] := by
    rw [build_inner_def, hpf, htl]
    rfl
  have htq : (build_from_objects ⟨0, 0⟩ 2
      [⟨⟨0, 0⟩, 1, 1⟩, ⟨⟨1, 1⟩, 1, 1⟩] [0, 1]).quads = [0, 1, 4] := by
    rw [build_quads_def, hpf, htl]
    rfl
  have hA : 1 ∈ (build_from_objects ⟨0, 0⟩ 2
      [⟨⟨0, 0⟩, 1, 1⟩, ⟨⟨1, 1⟩, 1, 1⟩] [0, 1]).quads := by
    rw [htq]
    simp
  have hB : 4 ∈ (build_from_objects ⟨0, 0⟩ 2
      [⟨⟨0, 0⟩, 1, 1⟩, ⟨⟨1, 1⟩, 1, 1⟩] [0, 1]).quads := by
    rw [htq]
    simp
  have hlev1 : lev 1 = 1 := by
    rw [show (1 : Nat) = 0 + 1 from rfl, lev_succ]
    norm_num [lev_zero]
  have hlev4 : lev 4 = 1 := by
    rw [show (4 : Nat) = 3 + 1 from rfl, lev_succ]
    norm_num [lev_zero]
  have hmem : 1 ∈ (pass2 (build_from_objects ⟨0, 0⟩ 2
      [⟨⟨0, 0⟩, 1, 1⟩, ⟨⟨1, 1⟩, 1, 1⟩] [0, 1])
      (pass1 [⟨⟨0, 0⟩, 1, 1⟩, ⟨⟨1, 1⟩, 1, 1⟩]
        (build_from_objects ⟨0, 0⟩ 2
          [⟨⟨0, 0⟩, 1, 1⟩, ⟨⟨1, 1⟩, 1, 1⟩] [0, 1]))).1.getD 4 [] := by
    apply (pass2_charac ⟨0, 0⟩ 2 [⟨⟨0, 0⟩, 1, 1⟩, ⟨⟨1, 1⟩, 1, 1⟩] [0, 1]
      _ 4 hB 1).mpr
    refine ⟨hA, by rw [hlev1, hlev4], ?_⟩
    rw [coordOf, coordOf, hti]
    show near_test (((0 : Nat), (0 : Nat)) : Nat × Nat) ((1, 1) : Nat × Nat)
    rw [near_test_iff]
    omega
  exact pass2_near_symmetric ⟨0, 0⟩ 2 [⟨⟨0, 0⟩, 1, 1⟩, ⟨⟨1, 1⟩, 1, 1⟩]
    [0, 1] 1 4 hA hB (by rw [hli]) (by rw [hli]; omega) hmem

end

end NBody
